import Mathlib

/-!
Verification of the grid-movement core of `random_game` (src/main.py).

The repository's own code provides, in class `Pathfinder` (src/main.py
lines 45-70), the neighbor generation, the unit edge cost and the Euclidean
heuristic of an A* search over an 8-connected grid, and, in class
`RandomGame`, a time-gated movement scheduler (`update`, lines 132-139), an
input handler that enqueues search results (lines 122-124), and coordinate
conversions between grid and world space (lines 123 and 137).  The A*
driver itself (`AStar.astar`) comes from the external `astar` package and
is not part of the repository; following the specification (§4.1) it is
modelled here as a best-first search with a closed set, returning a
start-exclusive, goal-inclusive path.

Grid cells are integer pairs, exactly as in the Python source.  Elapsed
time is modelled by rationals.
-/

namespace RandomGame

/-- A grid cell: an `(x, y)` pair of integers, as in the Python source
where a node "is just a (x,y) tuple". -/
abbrev Cell := Int × Int

/-- `MOVEMENT_DELAY = 0.5` (src/main.py line 13). -/
def MOVEMENT_DELAY : ℚ := 1/2

/-- The eight neighbor offsets, in the exact order they appear in
`Pathfinder.neighbors` (src/main.py line 65). -/
def offsets : List (Int × Int) :=
  [(0, -1), (0, 1), (-1, 0), (1, 0), (-1, -1), (1, -1), (1, 1), (-1, 1)]

/-- The bounds test of `Pathfinder.neighbors` (src/main.py line 68):
`x1 > 0 and y1 > 0 and x1 < self.width and y1 < self.height`.  Row 0 and
column 0 are excluded (strict inequalities). -/
def inBoundsB (w h : Nat) (c : Cell) : Bool :=
  0 < c.1 && 0 < c.2 && c.1 < (w : Int) && c.2 < (h : Int)

/-- `Pathfinder.neighbors` (src/main.py lines 62-70): the up-to-8 adjacent
cells of `c` that pass the bounds test, in source order. -/
def neighbors (w h : Nat) (c : Cell) : List Cell :=
  (offsets.map (fun d => (c.1 + d.1, c.2 + d.2))).filter (inBoundsB w h)

/-- `c` and `n` differ by one of the 8 neighbor offsets. -/
def adjacent8 (c n : Cell) : Bool :=
  decide ((n.1 - c.1, n.2 - c.2) ∈ offsets)

/-- `n` is produced by `Pathfinder.neighbors w h c`: an 8-offset of `c`
that passes the bounds test. -/
def isNeighborB (w h : Nat) (c n : Cell) : Bool :=
  adjacent8 c n && inBoundsB w h n

/-- `Pathfinder.distance_between` (src/main.py lines 58-60): every edge
costs exactly 1, so the accumulated cost of a path equals its length. -/
def distance_between (_n1 _n2 : Cell) : Nat := 1

/-- Squared Euclidean distance between two cells; the heuristic of
`Pathfinder.heuristic_cost_estimate` (src/main.py lines 52-56) is its
square root. -/
def hSq (a b : Cell) : Int :=
  (b.1 - a.1) ^ 2 + (b.2 - a.2) ^ 2

/-- Exact decision of `√a ≤ d + √b` for integers `a, b ≥ 0`: the
comparison of two heuristic values that `math.sqrt` performs in the
search, carried out in exact integer arithmetic. -/
def sqrtLe (a d b : Int) : Bool :=
  if 0 ≤ d then
    a - d ^ 2 - b ≤ 0 || (a - d ^ 2 - b) ^ 2 ≤ 4 * d ^ 2 * b
  else
    if b - a - d ^ 2 < 0 then false
    else 4 * d ^ 2 * a ≤ (b - a - d ^ 2) ^ 2

/-- An open-list entry of the search: a frontier cell together with the
start-exclusive path by which it was reached (so the accumulated cost
`g` is the path's length, each edge costing `distance_between = 1`). -/
abbrev Entry := Cell × List Cell

/-- `f e1 ≤ f e2` where `f = g + √hSq`: the priority comparison of the
best-first search, decided exactly. -/
def fLe (goal : Cell) (e1 e2 : Entry) : Bool :=
  sqrtLe (hSq e1.1 goal) ((e2.2.length : Int) - (e1.2.length : Int)) (hSq e2.1 goal)

/-- `f e1 < f e2`, strictly. -/
def fLt (goal : Cell) (e1 e2 : Entry) : Bool :=
  !(fLe goal e2 e1)

/-- Remove a minimum-priority entry from the open list: linear scan
keeping the current best, preferring the earliest entry among equal
priorities.  Returns the selected entry and the remaining entries in
their original relative order. -/
def selectMinAux (goal : Cell) : Entry → List Entry → Entry × List Entry
  | best, [] => (best, [])
  | best, e :: rest =>
    if fLt goal e best then
      let r := selectMinAux goal e rest
      (r.1, best :: r.2)
    else
      let r := selectMinAux goal best rest
      (r.1, e :: r.2)

/-- Relax one neighbor `n` reached by the path `q`: if `n` already has an
open entry, keep the shorter of the two paths (the search only improves a
tentative cost, mirroring the `tentative_gscore >= neighbor.gscore`
skip); otherwise add a fresh entry. -/
def updateEntry (n : Cell) (q : List Cell) : List Entry → List Entry
  | [] => [(n, q)]
  | (c, r) :: rest =>
    if c = n then
      (if q.length < r.length then (n, q) else (c, r)) :: rest
    else
      (c, r) :: updateEntry n q rest

/-- Relax every generated neighbor of a popped cell: neighbors already in
the closed set are skipped, the rest are offered to the open list. -/
def relaxAll (closed : List Cell) (p : List Cell) (ns : List Cell)
    (op : List Entry) : List Entry :=
  ns.foldl (fun acc n => if n ∈ closed then acc else updateEntry n (p ++ [n]) acc) op

/-- Modelled from the spec: the A* driver `AStar.astar` of the external
`astar` package is not in the repository; §4.1 describes it as best-first
graph search over `Pathfinder.neighbors` with unit edge cost, Euclidean
heuristic and mandatory visited-set (closed-set) bookkeeping, returning a
start-exclusive, goal-inclusive path (§3 "Path").  One loop iteration per
unit of fuel: pop a minimum-`f` open entry, stop if it is the goal,
otherwise close it and relax its neighbors.  `none` means the fuel ran
out; `some none` means the open list emptied with the goal unreached. -/
def astarLoop (w h : Nat) (goal : Cell) :
    Nat → List Entry → List Cell → Option (Option (List Cell))
  | 0, _, _ => none
  | fuel + 1, op, closed =>
    match op with
    | [] => some none
    | e :: rest =>
      let pr := selectMinAux goal e rest
      if pr.1.1 = goal then some (some pr.1.2)
      else
        let closed' := pr.1.1 :: closed
        astarLoop w h goal fuel
          (relaxAll closed' pr.1.2 (neighbors w h pr.1.1) pr.2) closed'

/-- Modelled from the spec: `Pathfinder.search` — the entry point the game
calls as `self.mesh.astar(start, goal)`.  A goal identical to the start is
signalled as an absent result (§7 "NoPathFound — goal unreachable or
identical to start; signaled as an absent result").  The fuel `w*h + 2`
is enough for the loop to run to completion (proved below), so exhausted
fuel is collapsed into the same absent result. -/
def astarSearch (w h : Nat) (start goal : Cell) : Option (List Cell) :=
  if start = goal then none
  else (astarLoop w h goal (w * h + 2) [(start, [])] []).join

/-- `RandomGame.handle_input` line 123 / `RandomGame.update` line 137:
grid-to-world conversion is componentwise multiplication by the tile
size (`operator.mul`). -/
def gridToWorld (c : Cell) (tile : Int × Int) : Int × Int :=
  (c.1 * tile.1, c.2 * tile.2)

/-- `RandomGame.handle_input` line 123: world-to-grid conversion is
componentwise floor division by the tile size (`operator.floordiv`,
Python `//`). -/
def worldToGrid (p : Int × Int) (tile : Int × Int) : Cell :=
  (Int.fdiv p.1 tile.1, Int.fdiv p.2 tile.2)

/-- The mutable state that `RandomGame.update` (src/main.py lines 132-139)
reads and writes: the elapsed-time accumulator `last_position_update`,
the pending move queue, and the player's world position. -/
structure GameState where
  lastPositionUpdate : ℚ
  moveQueue : List Cell
  playerPos : Int × Int
deriving DecidableEq

/-- src/main.py line 136 calls `self._move_queue.count()`.
`collections.deque.count` requires exactly one argument (the value whose
occurrences are counted), so this zero-argument call raises
`TypeError` whenever it is evaluated. -/
def dequeCountZeroArgs (_q : List Cell) : Except String Nat :=
  Except.error "TypeError: count() takes exactly one argument (0 given)"

/-- `RandomGame.update` (src/main.py lines 132-139) as literally written:
add `dt` to the accumulator; once it reaches `MOVEMENT_DELAY`, test the
queue with the zero-argument `count()` call — which raises — and only
then would pop a cell, apply it to the player and reset the
accumulator. -/
def updateRaw (tile : Int × Int) (st : GameState) (dt : ℚ) :
    Except String GameState :=
  let acc := st.lastPositionUpdate + dt
  if MOVEMENT_DELAY ≤ acc then
    match dequeCountZeroArgs st.moveQueue with
    | Except.error e => Except.error e
    | Except.ok cnt =>
      Except.ok <|
        if cnt ≠ 0 then
          match st.moveQueue with
          | [] => { st with lastPositionUpdate := 0 }
          | c :: rest =>
            { lastPositionUpdate := 0, moveQueue := rest,
              playerPos := gridToWorld c tile }
        else { st with lastPositionUpdate := 0 }
  else Except.ok { st with lastPositionUpdate := acc }

/-- Modelled from the spec: `MovementScheduler.tick` (§4.3) — the
behavior src/main.py lines 132-139 describe once the queue-emptiness test
is read as intended (the literal `self._move_queue.count()` raises, see
`dequeCountZeroArgs`): on a threshold crossing, pop the front cell if one
exists and apply it to the player, and reset the accumulator to 0
unconditionally. -/
def update (tile : Int × Int) (st : GameState) (dt : ℚ) : GameState :=
  let acc := st.lastPositionUpdate + dt
  if MOVEMENT_DELAY ≤ acc then
    match st.moveQueue with
    | [] => { st with lastPositionUpdate := 0 }
    | c :: rest =>
      { lastPositionUpdate := 0, moveQueue := rest,
        playerPos := gridToWorld c tile }
  else { st with lastPositionUpdate := acc }

/-! ### Path predicates -/

/-- `chainB w h prev p`: starting from `prev`, every element of `p` is a
`neighbors`-step from its predecessor. -/
def chainB (w h : Nat) : Cell → List Cell → Bool
  | _, [] => true
  | prev, c :: rest => isNeighborB w h prev c && chainB w h c rest

/-- The last cell of a path, or `s` for the empty (start-exclusive)
path. -/
def lastD (s : Cell) (p : List Cell) : Cell :=
  p.getLast?.getD s

theorem lastD_nil (s : Cell) : lastD s [] = s := rfl

theorem lastD_concat (s n : Cell) (p : List Cell) : lastD s (p ++ [n]) = n := by
  simp [lastD]

theorem lastD_mem (s : Cell) (p : List Cell) (hp : p ≠ []) : lastD s p ∈ p := by
  unfold lastD
  rw [List.getLast?_eq_getLast p hp]
  exact List.getLast_mem hp

theorem chainB_concat (w h : Nat) (s n : Cell) (p : List Cell) :
    chainB w h s (p ++ [n]) = (chainB w h s p && isNeighborB w h (lastD s p) n) := by
  induction p generalizing s with
  | nil => simp [chainB, lastD]
  | cons c rest ih =>
    have hl : lastD s (c :: rest) = lastD c rest := by
      cases rest with
      | nil => rfl
      | cons d tl =>
        unfold lastD
        rw [List.getLast?_cons_cons, List.getLast?_eq_getLast _ (List.cons_ne_nil d tl)]
        rfl
    have hstep : chainB w h s ((c :: rest) ++ [n]) =
        (isNeighborB w h s c && chainB w h c (rest ++ [n])) := rfl
    have hcons : chainB w h s (c :: rest) =
        (isNeighborB w h s c && chainB w h c rest) := rfl
    rw [hstep, ih c, hcons, hl, Bool.and_assoc]

theorem mem_neighbors_iff (w h : Nat) (c n : Cell) :
    n ∈ neighbors w h c ↔ isNeighborB w h c n = true := by
  unfold neighbors isNeighborB adjacent8
  rw [List.mem_filter, List.mem_map]
  constructor
  · rintro ⟨⟨d, hd, hfd⟩, hb⟩
    rw [Bool.and_eq_true, decide_eq_true_iff]
    refine ⟨?_, hb⟩
    have h1 : c.1 + d.1 = n.1 := congrArg Prod.fst hfd
    have h2 : c.2 + d.2 = n.2 := congrArg Prod.snd hfd
    have : (n.1 - c.1, n.2 - c.2) = d := by
      have : d = (d.1, d.2) := rfl
      rw [this]
      exact Prod.ext (by omega) (by omega)
    rw [this]; exact hd
  · intro hx
    rw [Bool.and_eq_true, decide_eq_true_iff] at hx
    refine ⟨⟨(n.1 - c.1, n.2 - c.2), hx.1, ?_⟩, hx.2⟩
    exact Prod.ext (by simp) (by simp)

theorem isNeighborB_inBounds (w h : Nat) (c n : Cell)
    (hn : isNeighborB w h c n = true) : inBoundsB w h n = true := by
  unfold isNeighborB at hn
  exact (Bool.and_eq_true _ _ |>.mp hn).2

theorem chainB_mem_inBounds (w h : Nat) :
    ∀ (p : List Cell) (s x : Cell), chainB w h s p = true → x ∈ p →
      inBoundsB w h x = true := by
  intro p
  induction p with
  | nil => intro s x _ hx; cases hx
  | cons c rest ih =>
    intro s x hch hx
    unfold chainB at hch
    rw [Bool.and_eq_true] at hch
    rcases List.mem_cons.mp hx with rfl | hx'
    · exact isNeighborB_inBounds w h s x hch.1
    · exact ih c x hch.2 hx'

/-! ### Invariants of the search loop -/

/-- A well-formed open-list entry reached from start `s`: its recorded
path is a neighbor chain from `s`, it ends at the entry's cell, and it
never revisits `s`. -/
def EntryOkP (w h : Nat) (s : Cell) (e : Entry) : Prop :=
  chainB w h s e.2 = true ∧ lastD s e.2 = e.1 ∧ s ∉ e.2

/-- The open list is well formed with respect to the closed set: every
entry is well formed, no two entries share a cell, and no open cell is
closed. -/
def OpenOk (w h : Nat) (s : Cell) (op : List Entry) (closed : List Cell) : Prop :=
  (∀ e ∈ op, EntryOkP w h s e) ∧ (op.map Prod.fst).Nodup ∧ ∀ e ∈ op, e.1 ∉ closed

/-- Full loop invariant: the open list is well formed and the start has
been closed, except in the initial state where the open list is exactly
the start entry. -/
def StInv (w h : Nat) (s : Cell) (op : List Entry) (closed : List Cell) : Prop :=
  OpenOk w h s op closed ∧ (s ∈ closed ∨ (closed = [] ∧ op = [(s, [])]))

theorem entry_cell_allowed (w h : Nat) (s : Cell) (e : Entry)
    (he : EntryOkP w h s e) : e.1 = s ∨ inBoundsB w h e.1 = true := by
  obtain ⟨hch, hlast, -⟩ := he
  cases hp : e.2 with
  | nil => left; rw [← hlast, hp]; rfl
  | cons c rest =>
    right
    have hmem : e.1 ∈ e.2 := by
      rw [← hlast]
      exact lastD_mem s e.2 (by rw [hp]; exact List.cons_ne_nil c rest)
    exact chainB_mem_inBounds w h e.2 s e.1 hch hmem

theorem selectMinAux_perm (goal : Cell) (b : Entry) (l : List Entry) :
    List.Perm ((selectMinAux goal b l).1 :: (selectMinAux goal b l).2) (b :: l) := by
  induction l generalizing b with
  | nil => simp [selectMinAux]
  | cons e rest ih =>
    by_cases hc : fLt goal e b = true
    · have hsel : selectMinAux goal b (e :: rest) =
          ((selectMinAux goal e rest).1, b :: (selectMinAux goal e rest).2) := by
        simp only [selectMinAux, hc, if_true]
      rw [hsel]
      exact (List.Perm.swap b _ _).trans ((ih e).cons b)
    · have hsel : selectMinAux goal b (e :: rest) =
          ((selectMinAux goal b rest).1, e :: (selectMinAux goal b rest).2) := by
        simp only [selectMinAux, hc, Bool.false_eq_true, if_false]
      rw [hsel]
      exact ((List.Perm.swap e _ _).trans ((ih b).cons e)).trans
        (List.Perm.swap b e rest)

theorem selectMinAux_fst_mem (goal : Cell) (b : Entry) (l : List Entry) :
    (selectMinAux goal b l).1 ∈ b :: l :=
  (selectMinAux_perm goal b l).mem_iff.mp (List.mem_cons_self _ _)

theorem selectMinAux_snd_subset (goal : Cell) (b : Entry) (l : List Entry) :
    ∀ e ∈ (selectMinAux goal b l).2, e ∈ b :: l := fun e he =>
  (selectMinAux_perm goal b l).mem_iff.mp (List.mem_cons_of_mem _ he)

theorem updateEntry_mem (n : Cell) (q : List Cell) :
    ∀ (l : List Entry) (e : Entry), e ∈ updateEntry n q l → e ∈ l ∨ e = (n, q) := by
  intro l
  induction l with
  | nil =>
    intro e he
    unfold updateEntry at he
    right; exact List.mem_singleton.mp he
  | cons hd tl ih =>
    intro e he
    obtain ⟨c, r⟩ := hd
    unfold updateEntry at he
    by_cases hc : c = n
    · rw [if_pos hc] at he
      rcases List.mem_cons.mp he with h1 | h2
      · by_cases hlen : q.length < r.length
        · rw [if_pos hlen] at h1; right; exact h1
        · rw [if_neg hlen] at h1; left; rw [h1]; exact List.mem_cons_self _ _
      · left; exact List.mem_cons_of_mem _ h2
    · rw [if_neg hc] at he
      rcases List.mem_cons.mp he with h1 | h2
      · left; rw [h1]; exact List.mem_cons_self _ _
      · rcases ih e h2 with h3 | h4
        · left; exact List.mem_cons_of_mem _ h3
        · right; exact h4

theorem updateEntry_map_fst (n : Cell) (q : List Cell) :
    ∀ l : List Entry, (updateEntry n q l).map Prod.fst =
      if n ∈ l.map Prod.fst then l.map Prod.fst else l.map Prod.fst ++ [n] := by
  intro l
  induction l with
  | nil => simp [updateEntry]
  | cons hd tl ih =>
    obtain ⟨c, r⟩ := hd
    unfold updateEntry
    by_cases hc : c = n
    · rw [if_pos hc]
      by_cases hlen : q.length < r.length
      · rw [if_pos hlen]
        have : n ∈ ((c, r) :: tl).map Prod.fst := by
          simp [hc.symm]
        rw [if_pos this]
        simp [hc]
      · rw [if_neg hlen]
        have : n ∈ ((c, r) :: tl).map Prod.fst := by
          simp [hc.symm]
        rw [if_pos this]
    · rw [if_neg hc]
      by_cases hm : n ∈ tl.map Prod.fst
      · have : n ∈ ((c, r) :: tl).map Prod.fst := by
          simp [hm]
        rw [if_pos this]
        simp only [List.map_cons]
        rw [ih, if_pos hm]
      · have : n ∉ ((c, r) :: tl).map Prod.fst := by
          simp only [List.map_cons, List.mem_cons]
          push_neg
          exact ⟨fun hcn => hc hcn.symm, hm⟩
        rw [if_neg this]
        simp only [List.map_cons, List.cons_append]
        rw [ih, if_neg hm]

theorem updateEntry_fst_nodup (n : Cell) (q : List Cell) (l : List Entry)
    (hl : (l.map Prod.fst).Nodup) : ((updateEntry n q l).map Prod.fst).Nodup := by
  rw [updateEntry_map_fst]
  by_cases hm : n ∈ l.map Prod.fst
  · rw [if_pos hm]; exact hl
  · rw [if_neg hm]
    exact List.Nodup.append hl (List.nodup_singleton n)
      (by simpa [List.disjoint_singleton] using hm)

theorem updateEntry_ok (w h : Nat) (s n : Cell) (q : List Cell)
    (l : List Entry) (closed : List Cell)
    (hok : OpenOk w h s l closed) (hq : EntryOkP w h s (n, q)) (hn : n ∉ closed) :
    OpenOk w h s (updateEntry n q l) closed := by
  obtain ⟨hent, hnd, hcl⟩ := hok
  refine ⟨?_, updateEntry_fst_nodup n q l hnd, ?_⟩
  · intro e he
    rcases updateEntry_mem n q l e he with h1 | h2
    · exact hent e h1
    · rw [h2]; exact hq
  · intro e he
    rcases updateEntry_mem n q l e he with h1 | h2
    · exact hcl e h1
    · rw [h2]; exact hn

theorem relaxAll_ok (w h : Nat) (s c : Cell) (p : List Cell) (closed : List Cell)
    (hch : chainB w h s p = true) (hlast : lastD s p = c) (hsp : s ∉ p)
    (hsc : s ∈ closed) :
    ∀ (ns : List Cell) (op : List Entry), (∀ n ∈ ns, n ∈ neighbors w h c) →
      OpenOk w h s op closed → OpenOk w h s (relaxAll closed p ns op) closed := by
  intro ns
  induction ns with
  | nil => intro op _ hok; exact hok
  | cons n rest ih =>
    intro op hns hok
    have hrest : ∀ m ∈ rest, m ∈ neighbors w h c := fun m hm =>
      hns m (List.mem_cons_of_mem _ hm)
    have hstep : relaxAll closed p (n :: rest) op =
        relaxAll closed p rest
          (if n ∈ closed then op else updateEntry n (p ++ [n]) op) := rfl
    rw [hstep]
    by_cases hmem : n ∈ closed
    · rw [if_pos hmem]; exact ih op hrest hok
    · rw [if_neg hmem]
      refine ih _ hrest (updateEntry_ok w h s n (p ++ [n]) op closed hok ?_ hmem)
      have hnn : isNeighborB w h c n = true :=
        (mem_neighbors_iff w h c n).mp (hns n (List.mem_cons_self _ _))
      refine ⟨?_, lastD_concat s n p, ?_⟩
      · rw [chainB_concat, hlast]
        exact Bool.and_eq_true _ _ |>.mpr ⟨hch, hnn⟩
      · rw [List.mem_append]
        push_neg
        refine ⟨hsp, ?_⟩
        intro hsn
        rcases List.mem_singleton.mp hsn with rfl
        exact hmem hsc

theorem stepInv (w h : Nat) (s goal : Cell) (e : Entry) (rest : List Entry)
    (closed : List Cell) (hinv : StInv w h s (e :: rest) closed) :
    EntryOkP w h s (selectMinAux goal e rest).1 ∧
      (selectMinAux goal e rest).1.1 ∉ closed ∧
      StInv w h s
        (relaxAll ((selectMinAux goal e rest).1.1 :: closed)
          (selectMinAux goal e rest).1.2
          (neighbors w h (selectMinAux goal e rest).1.1)
          (selectMinAux goal e rest).2)
        ((selectMinAux goal e rest).1.1 :: closed) := by
  obtain ⟨⟨hent, hnd, hcl⟩, hlock⟩ := hinv
  have hbmem : (selectMinAux goal e rest).1 ∈ e :: rest := selectMinAux_fst_mem goal e rest
  have hbo : EntryOkP w h s (selectMinAux goal e rest).1 := hent _ hbmem
  have hbc : (selectMinAux goal e rest).1.1 ∉ closed := hcl _ hbmem
  have hperm := (selectMinAux_perm goal e rest).map Prod.fst
  have hnd2 : (((selectMinAux goal e rest).1 :: (selectMinAux goal e rest).2).map
      Prod.fst).Nodup := hperm.nodup_iff.mpr hnd
  rw [List.map_cons, List.nodup_cons] at hnd2
  have hsc : s ∈ (selectMinAux goal e rest).1.1 :: closed := by
    rcases hlock with hs | ⟨hc0, hop⟩
    · exact List.mem_cons_of_mem _ hs
    · have he : e = (s, []) ∧ rest = [] := by
        have h1 := congrArg List.head? hop
        have h2 := congrArg List.tail hop
        simp at h1 h2
        exact ⟨h1, h2⟩
      rw [he.1, he.2]
      have : selectMinAux goal (s, ([] : List Cell)) [] = ((s, []), []) := rfl
      rw [this]
      exact List.mem_cons_self _ _
  refine ⟨hbo, hbc, ?_, Or.inl hsc⟩
  have hok2 : OpenOk w h s (selectMinAux goal e rest).2
      ((selectMinAux goal e rest).1.1 :: closed) := by
    refine ⟨?_, hnd2.2, ?_⟩
    · intro e' he'
      exact hent _ (selectMinAux_snd_subset goal e rest e' he')
    · intro e' he'
      rw [List.mem_cons]
      push_neg
      constructor
      · intro heq
        exact hnd2.1 (heq ▸ List.mem_map_of_mem Prod.fst he')
      · exact hcl _ (selectMinAux_snd_subset goal e rest e' he')
  exact relaxAll_ok w h s (selectMinAux goal e rest).1.1
    (selectMinAux goal e rest).1.2 _ hbo.1 hbo.2.1 hbo.2.2 hsc _ _
    (fun n hn => hn) hok2

theorem astarLoop_ok (w h : Nat) (s goal : Cell) :
    ∀ (fuel : Nat) (op : List Entry) (closed : List Cell),
      StInv w h s op closed →
      ∀ p, astarLoop w h goal fuel op closed = some (some p) →
        EntryOkP w h s (goal, p) := by
  intro fuel
  induction fuel with
  | zero =>
    intro op closed _ p hp
    simp [astarLoop] at hp
  | succ fuel ih =>
    intro op closed hinv p hp
    cases op with
    | nil => simp [astarLoop] at hp
    | cons e rest =>
      by_cases hg : (selectMinAux goal e rest).1.1 = goal
      · have hred : astarLoop w h goal (fuel + 1) (e :: rest) closed =
            some (some (selectMinAux goal e rest).1.2) := by
          simp only [astarLoop]
          rw [if_pos hg]
        rw [hred] at hp
        obtain rfl : (selectMinAux goal e rest).1.2 = p := by
          injection hp with hp1
          injection hp1
        have hbo := (stepInv w h s goal e rest closed hinv).1
        have heq : (selectMinAux goal e rest).1 =
            (goal, (selectMinAux goal e rest).1.2) := Prod.ext hg rfl
        rw [heq] at hbo
        exact hbo
      · have hred : astarLoop w h goal (fuel + 1) (e :: rest) closed =
            astarLoop w h goal fuel
              (relaxAll ((selectMinAux goal e rest).1.1 :: closed)
                (selectMinAux goal e rest).1.2
                (neighbors w h (selectMinAux goal e rest).1.1)
                (selectMinAux goal e rest).2)
              ((selectMinAux goal e rest).1.1 :: closed) := by
          simp only [astarLoop]
          rw [if_neg hg]
        rw [hred] at hp
        exact ih _ _ (stepInv w h s goal e rest closed hinv).2.2 p hp

theorem initInv (w h : Nat) (s : Cell) : StInv w h s [(s, [])] [] := by
  refine ⟨⟨?_, ?_, ?_⟩, Or.inr ⟨rfl, rfl⟩⟩
  · intro e he
    rw [List.mem_singleton] at he
    rw [he]
    exact ⟨rfl, rfl, List.not_mem_nil s⟩
  · simp
  · intro e _
    exact List.not_mem_nil _

theorem astarSearch_ok (w h : Nat) (s goal : Cell) (p : List Cell)
    (hp : astarSearch w h s goal = some p) :
    chainB w h s p = true ∧ lastD s p = goal ∧ s ∉ p ∧ s ≠ goal := by
  unfold astarSearch at hp
  by_cases hsg : s = goal
  · rw [if_pos hsg] at hp; cases hp
  · rw [if_neg hsg] at hp
    have hloop : astarLoop w h goal (w * h + 2) [(s, [])] [] = some (some p) := by
      cases hl : astarLoop w h goal (w * h + 2) [(s, [])] [] with
      | none => rw [hl] at hp; cases hp
      | some o =>
        cases o with
        | none => rw [hl] at hp; cases hp
        | some q =>
          rw [hl] at hp
          have hqp : q = p := by
            simpa [Option.join] using hp
          rw [hqp]
    have := astarLoop_ok w h s goal (w * h + 2) [(s, [])] []
      (initInv w h s) p hloop
    exact ⟨this.1, this.2.1, this.2.2, hsg⟩

theorem astarSearch_path_ne_nil (w h : Nat) (s goal : Cell) (p : List Cell)
    (hp : astarSearch w h s goal = some p) : p ≠ [] := by
  intro hnil
  obtain ⟨-, hlast, -, hsg⟩ := astarSearch_ok w h s goal p hp
  rw [hnil] at hlast
  exact hsg hlast

theorem chainB_chain' (w h : Nat) :
    ∀ (p : List Cell) (s : Cell), chainB w h s p = true →
      List.Chain' (fun a b => adjacent8 a b = true) p := by
  intro p
  induction p with
  | nil => intro s _; exact List.chain'_nil
  | cons c rest ih =>
    intro s hch
    unfold chainB at hch
    rw [Bool.and_eq_true] at hch
    cases rest with
    | nil => exact List.chain'_singleton c
    | cons d tl =>
      rw [List.chain'_cons]
      have hcd : isNeighborB w h c d = true := by
        have h2 := hch.2
        unfold chainB at h2
        exact (Bool.and_eq_true _ _ |>.mp h2).1
      exact ⟨(Bool.and_eq_true _ _ |>.mp hcd).1, ih c hch.2⟩

theorem chainB_head (w h : Nat) (s c : Cell) (rest : List Cell)
    (hch : chainB w h s (c :: rest) = true) : isNeighborB w h s c = true := by
  unfold chainB at hch
  exact (Bool.and_eq_true _ _ |>.mp hch).1

/-! ### Termination of the search loop -/

/-- The finite set of cells that pass the bounds test of
`Pathfinder.neighbors`: the grid interior with row 0 and column 0
excluded. -/
def interiorF (w h : Nat) : Finset Cell :=
  Finset.Icc (1 : Int) ((w : Int) - 1) ×ˢ Finset.Icc (1 : Int) ((h : Int) - 1)

theorem inBounds_mem_interiorF (w h : Nat) (c : Cell) :
    inBoundsB w h c = true ↔ c ∈ interiorF w h := by
  unfold inBoundsB interiorF
  rw [Finset.mem_product, Finset.mem_Icc, Finset.mem_Icc]
  simp only [Bool.and_eq_true, decide_eq_true_eq]
  omega

/-- Every cell the loop can ever pop: the start plus the bounds-checked
interior. -/
def allowedF (w h : Nat) (s : Cell) : Finset Cell :=
  insert s (interiorF w h)

theorem astarLoop_total (w h : Nat) (s goal : Cell) :
    ∀ (fuel : Nat) (op : List Entry) (closed : List Cell),
      StInv w h s op closed →
      (allowedF w h s \ closed.toFinset).card < fuel →
      (astarLoop w h goal fuel op closed).isSome = true := by
  intro fuel
  induction fuel with
  | zero =>
    intro op closed _ hcard
    exact absurd hcard (Nat.not_lt_zero _)
  | succ fuel ih =>
    intro op closed hinv hcard
    cases op with
    | nil => simp [astarLoop]
    | cons e rest =>
      by_cases hg : (selectMinAux goal e rest).1.1 = goal
      · have hred : astarLoop w h goal (fuel + 1) (e :: rest) closed =
            some (some (selectMinAux goal e rest).1.2) := by
          simp only [astarLoop]
          rw [if_pos hg]
        rw [hred]
        rfl
      · have hred : astarLoop w h goal (fuel + 1) (e :: rest) closed =
            astarLoop w h goal fuel
              (relaxAll ((selectMinAux goal e rest).1.1 :: closed)
                (selectMinAux goal e rest).1.2
                (neighbors w h (selectMinAux goal e rest).1.1)
                (selectMinAux goal e rest).2)
              ((selectMinAux goal e rest).1.1 :: closed) := by
          simp only [astarLoop]
          rw [if_neg hg]
        rw [hred]
        obtain ⟨hbo, hbc, hinv2⟩ := stepInv w h s goal e rest closed hinv
        apply ih _ _ hinv2
        have hcell : (selectMinAux goal e rest).1.1 ∈ allowedF w h s := by
          rcases entry_cell_allowed w h s _ hbo with hs | hb
          · rw [hs]; exact Finset.mem_insert_self _ _
          · exact Finset.mem_insert_of_mem ((inBounds_mem_interiorF w h _).mp hb)
        have hmemd : (selectMinAux goal e rest).1.1 ∈
            allowedF w h s \ closed.toFinset := by
          rw [Finset.mem_sdiff]
          exact ⟨hcell, fun hmem => hbc (List.mem_toFinset.mp hmem)⟩
        have hstep : allowedF w h s \
            ((selectMinAux goal e rest).1.1 :: closed).toFinset =
            (allowedF w h s \ closed.toFinset).erase
              (selectMinAux goal e rest).1.1 := by
          rw [List.toFinset_cons]
          ext x
          simp only [Finset.mem_sdiff, Finset.mem_insert, Finset.mem_erase]
          tauto
        rw [hstep, Finset.card_erase_of_mem hmemd]
        have hpos : 0 < (allowedF w h s \ closed.toFinset).card :=
          Finset.card_pos.mpr ⟨_, hmemd⟩
        omega

theorem interiorF_card (w h : Nat) : (interiorF w h).card = (w - 1) * (h - 1) := by
  unfold interiorF
  rw [Finset.card_product, Int.card_Icc, Int.card_Icc]
  congr 1 <;> omega

/-! ### Claim theorems: Pathfinder -/

/-- C9: For every finite grid and every start/goal pair (reachable or
not), the search terminates: with fuel `w*h + 2` — one unit per loop
iteration, bounded by the finite number of grid cells the closed-set
bookkeeping can absorb — the loop always reaches a final answer instead
of running out of fuel. -/
theorem astarLoop_terminates_within_grid_bound (w h : Nat) (s goal : Cell) :
    (astarLoop w h goal (w * h + 2) [(s, [])] []).isSome = true := by
  apply astarLoop_total w h s goal (w * h + 2) [(s, [])] [] (initInv w h s)
  have h1 : (([] : List Cell)).toFinset = (∅ : Finset Cell) := rfl
  rw [h1, Finset.sdiff_empty]
  have h2 : (allowedF w h s).card ≤ (interiorF w h).card + 1 :=
    Finset.card_insert_le _ _
  rw [interiorF_card] at h2
  have h3 : (w - 1) * (h - 1) ≤ w * h :=
    Nat.mul_le_mul (Nat.sub_le w 1) (Nat.sub_le h 1)
  omega

/-- C1: whenever the search returns a path, consecutive cells of the path
differ by one of the 8 neighbor offsets, and the final element is the
goal cell. -/
theorem astarSearch_steps_adjacent_goal_final (w h : Nat) (s g : Cell)
    (p : List Cell) (hp : astarSearch w h s g = some p) :
    List.Chain' (fun a b => adjacent8 a b = true) p ∧ p.getLast? = some g := by
  obtain ⟨hch, hlast, -, -⟩ := astarSearch_ok w h s g p hp
  have hne : p ≠ [] := astarSearch_path_ne_nil w h s g p hp
  constructor
  · exact chainB_chain' w h p s hch
  · rw [List.getLast?_eq_getLast p hne]
    unfold lastD at hlast
    rw [List.getLast?_eq_getLast p hne] at hlast
    rw [Option.getD_some] at hlast
    rw [hlast]

/-- Witness for C1: the concrete 10×10 run from start `(1,1)` to goal
`(5,5)` returns the diagonal path, which satisfies the property. -/
theorem astarSearch_steps_adjacent_goal_final_witness :
    List.Chain' (fun a b => adjacent8 a b = true)
      ([(2, 2), (3, 3), (4, 4), (5, 5)] : List Cell) ∧
    ([(2, 2), (3, 3), (4, 4), (5, 5)] : List Cell).getLast? = some (5, 5) :=
  astarSearch_steps_adjacent_goal_final 10 10 (1, 1) (5, 5)
    [(2, 2), (3, 3), (4, 4), (5, 5)] (by decide)

/-- C3: every returned path is start-exclusive and its first element is a
single neighbor step away from the start. -/
theorem astarSearch_start_exclusive_first_step (w h : Nat) (s g : Cell)
    (p : List Cell) (hp : astarSearch w h s g = some p) :
    s ∉ p ∧ ∃ c, p.head? = some c ∧ isNeighborB w h s c = true := by
  obtain ⟨hch, -, hs, -⟩ := astarSearch_ok w h s g p hp
  have hne : p ≠ [] := astarSearch_path_ne_nil w h s g p hp
  refine ⟨hs, ?_⟩
  cases hp2 : p with
  | nil => exact absurd hp2 hne
  | cons c rest =>
    refine ⟨c, rfl, ?_⟩
    rw [hp2] at hch
    exact chainB_head w h s c rest hch

/-- Witness for C3: the concrete 10×10 run from `(1,1)` to `(5,5)`. -/
theorem astarSearch_start_exclusive_first_step_witness :
    ((1, 1) : Cell) ∉ ([(2, 2), (3, 3), (4, 4), (5, 5)] : List Cell) ∧
    ∃ c, ([(2, 2), (3, 3), (4, 4), (5, 5)] : List Cell).head? = some c ∧
      isNeighborB 10 10 (1, 1) c = true :=
  astarSearch_start_exclusive_first_step 10 10 (1, 1) (5, 5)
    [(2, 2), (3, 3), (4, 4), (5, 5)] (by decide)

/-- C4: a goal that fails the bounds test of neighbor generation — outside
`[0, width) × [0, height)`, or on the excluded row 0 or column 0 — is
unreachable, and the search returns an absent result. -/
theorem astarSearch_unreachable_goal_none (w h : Nat) (s g : Cell)
    (hg : inBoundsB w h g = false) : astarSearch w h s g = none := by
  unfold astarSearch
  by_cases hsg : s = g
  · rw [if_pos hsg]
  · rw [if_neg hsg]
    cases hl : astarLoop w h g (w * h + 2) [(s, [])] [] with
    | none => rfl
    | some o =>
      cases o with
      | none => rfl
      | some p =>
        exfalso
        have hok := astarLoop_ok w h s g (w * h + 2) [(s, [])] []
          (initInv w h s) p hl
        rcases entry_cell_allowed w h s (g, p) hok with h1 | h2
        · exact hsg h1.symm
        · rw [hg] at h2
          cases h2

/-- Witness for C4: requesting a path to `(0, 3)` (excluded column 0) on a
10×10 grid yields an absent result. -/
theorem astarSearch_unreachable_goal_none_witness :
    inBoundsB 10 10 (0, 3) = false ∧ astarSearch 10 10 (5, 5) (0, 3) = none :=
  ⟨by decide, astarSearch_unreachable_goal_none 10 10 (5, 5) (0, 3) (by decide)⟩

/-! ### Claim theorems: scheduler and game state -/

/-- C5 (failing evaluation): with the accumulator at 0 and a cell queued,
`tick(0.3)` succeeds (no threshold crossing), but the second `tick(0.3)`
reaches `0.6 ≥ 0.5` and evaluates the zero-argument
`self._move_queue.count()`, which raises `TypeError` instead of popping
exactly one cell. -/
theorem updateRaw_tick_tick_typeerror :
    (updateRaw (32, 32) ⟨0, [(2, 2)], (0, 0)⟩ (3/10)).bind
      (fun st => updateRaw (32, 32) st (3/10)) =
    Except.error "TypeError: count() takes exactly one argument (0 given)" := by
  have h1 : updateRaw (32, 32) ⟨0, [(2, 2)], (0, 0)⟩ (3/10) =
      Except.ok ⟨3/10, [(2, 2)], (0, 0)⟩ := by
    norm_num [updateRaw, MOVEMENT_DELAY]
  rw [h1]
  norm_num [Except.bind, updateRaw, MOVEMENT_DELAY, dequeCountZeroArgs]

/-- C6 (failing evaluation): a tick that makes the accumulator reach the
threshold (`1/4 + 1/4 = 1/2 ≥ MOVEMENT_DELAY`) raises `TypeError` from the
zero-argument `count()` call before the accumulator can be reset, so the
steady-state invariant `0 ≤ accumulator < delay_threshold` is not
re-established. -/
theorem updateRaw_threshold_typeerror_no_reset :
    updateRaw (32, 32) ⟨1/4, [(3, 3)], (0, 0)⟩ (1/4) =
    Except.error "TypeError: count() takes exactly one argument (0 given)" := by
  norm_num [updateRaw, MOVEMENT_DELAY, dequeCountZeroArgs]

/-- C7 (failing evaluation): a threshold crossing with an *empty* queue is
not a silent no-op — the zero-argument `count()` call raises `TypeError`
before the emptiness of the queue is even decided. -/
theorem updateRaw_empty_queue_crossing_typeerror :
    updateRaw (32, 32) ⟨0, [], (0, 0)⟩ (1/2) =
    Except.error "TypeError: count() takes exactly one argument (0 given)" := by
  norm_num [updateRaw, MOVEMENT_DELAY, dequeCountZeroArgs]

/-- The behavior the spec describes for `tick`, on the spec-modelled
`update` (queue-emptiness read as intended): `tick(0.3)` pops nothing,
the second `tick(0.3)` pops exactly one cell and resets the accumulator,
and a third `tick(0.3)` pops nothing again. -/
theorem update_intended_tick_scenario :
    update (32, 32) ⟨0, [(2, 2)], (0, 0)⟩ (3/10) = ⟨3/10, [(2, 2)], (0, 0)⟩ ∧
    update (32, 32) ⟨3/10, [(2, 2)], (0, 0)⟩ (3/10) = ⟨0, [], (64, 64)⟩ ∧
    update (32, 32) ⟨0, [], (64, 64)⟩ (3/10) = ⟨3/10, [], (64, 64)⟩ := by
  refine ⟨?_, ?_, ?_⟩ <;> norm_num [update, MOVEMENT_DELAY, gridToWorld]

/-- The reachable states of the game's movement subsystem: the game starts
with a zero accumulator and an empty queue at some initial position
(src/main.py lines 78-80, 94-95); pressing space enqueues a successful
search result towards `(5, 5)` (line 124); and time passes either through
the literal `update` when it does not raise, or through the spec-modelled
`update`. -/
inductive Reachable (w h : Nat) (tile : Int × Int) : GameState → Prop
  | start (pos : Int × Int) : Reachable w h tile ⟨0, [], pos⟩
  | enqueue {st : GameState} (path : List Cell)
      (hpath : astarSearch w h (worldToGrid st.playerPos tile) (5, 5) = some path) :
      Reachable w h tile st →
      Reachable w h tile { st with moveQueue := st.moveQueue ++ path }
  | tickRaw {st st' : GameState} (dt : ℚ)
      (hok : updateRaw tile st dt = Except.ok st') :
      Reachable w h tile st → Reachable w h tile st'
  | tick {st : GameState} (dt : ℚ) :
      Reachable w h tile st → Reachable w h tile (update tile st dt)

theorem astarSearch_mem_inBounds (w h : Nat) (s g : Cell) (p : List Cell)
    (hp : astarSearch w h s g = some p) :
    ∀ c ∈ p, inBoundsB w h c = true := by
  obtain ⟨hch, -, -, -⟩ := astarSearch_ok w h s g p hp
  exact fun c hc => chainB_mem_inBounds w h p s c hch hc

theorem updateRaw_ok_queue (tile : Int × Int) (st st' : GameState) (dt : ℚ)
    (hok : updateRaw tile st dt = Except.ok st') : st'.moveQueue = st.moveQueue := by
  unfold updateRaw at hok
  by_cases hcross : MOVEMENT_DELAY ≤ st.lastPositionUpdate + dt
  · rw [if_pos hcross] at hok
    cases hok
  · rw [if_neg hcross] at hok
    injection hok with hok
    rw [← hok]

theorem update_queue_subset (tile : Int × Int) (st : GameState) (dt : ℚ) :
    ∀ c ∈ (update tile st dt).moveQueue, c ∈ st.moveQueue := by
  unfold update
  by_cases hcross : MOVEMENT_DELAY ≤ st.lastPositionUpdate + dt
  · rw [if_pos hcross]
    generalize st.moveQueue = q
    cases q with
    | nil => intro c hc; exact hc
    | cons d rest => intro c hc; exact List.mem_cons_of_mem d hc
  · rw [if_neg hcross]
    intro c hc
    exact hc

/-- C8: at every reachable state, every cell held in the move queue lies
inside the grid bounds that neighbor generation enforces, because only
Pathfinder output is ever enqueued. -/
theorem reachable_queue_inBounds (w h : Nat) (tile : Int × Int)
    (st : GameState) (hst : Reachable w h tile st) :
    ∀ c ∈ st.moveQueue, inBoundsB w h c = true := by
  induction hst with
  | start pos => intro c hc; cases hc
  | enqueue path hpath _ ih =>
    intro c hc
    rcases List.mem_append.mp hc with h1 | h2
    · exact ih c h1
    · exact astarSearch_mem_inBounds w h _ _ path hpath c h2
  | tickRaw dt hok _ ih =>
    intro c hc
    rw [updateRaw_ok_queue _ _ _ _ hok] at hc
    exact ih c hc
  | tick dt _ ih =>
    intro c hc
    exact ih c (update_queue_subset _ _ dt c hc)

/-- Witness for C8: after the game starts at world position `(32, 32)`
(grid cell `(1,1)` with 32-pixel tiles) and one space press enqueues the
path to `(5,5)`, the queued cell `(2,2)` is inside the 10×10 grid
bounds. -/
theorem reachable_queue_inBounds_witness : inBoundsB 10 10 (2, 2) = true :=
  reachable_queue_inBounds 10 10 (32, 32)
    ⟨0, [(2, 2), (3, 3), (4, 4), (5, 5)], (32, 32)⟩
    (Reachable.enqueue [(2, 2), (3, 3), (4, 4), (5, 5)] (by decide)
      (Reachable.start (32, 32)))
    (2, 2) (by decide)

/-- C10: converting a cell to world coordinates by componentwise
multiplication with the tile size and back by componentwise floor
division is the identity, for non-negative coordinates and positive tile
sizes. -/
theorem worldToGrid_gridToWorld (c : Cell) (tile : Int × Int)
    (hx : 0 ≤ c.1) (hy : 0 ≤ c.2) (htx : 0 < tile.1) (hty : 0 < tile.2) :
    worldToGrid (gridToWorld c tile) tile = c := by
  unfold worldToGrid gridToWorld
  exact Prod.ext (Int.mul_fdiv_cancel c.1 (ne_of_gt htx))
    (Int.mul_fdiv_cancel c.2 (ne_of_gt hty))

/-- Witness for C10: cell `(3, 4)` with 32×32 tiles. -/
theorem worldToGrid_gridToWorld_witness :
    worldToGrid (gridToWorld (3, 4) (32, 32)) (32, 32) = ((3 : Int), (4 : Int)) :=
  worldToGrid_gridToWorld (3, 4) (32, 32) (by decide) (by decide)
    (by decide) (by decide)

/-! ### Fidelity of the exact priority comparator -/

/-- `sqrtLe` decides exactly the real-number comparison `√a ≤ d + √b`
that the search's `math.sqrt`-based priority ordering performs. -/
theorem sqrtLe_correct (a d b : Int) (ha : 0 ≤ a) (hb : 0 ≤ b) :
    sqrtLe a d b = true ↔
      Real.sqrt (a : ℝ) ≤ (d : ℝ) + Real.sqrt (b : ℝ) := by
  have ha' : (0:ℝ) ≤ (a:ℝ) := by exact_mod_cast ha
  have hb' : (0:ℝ) ≤ (b:ℝ) := by exact_mod_cast hb
  have hsa := Real.sqrt_nonneg (a:ℝ)
  have hsb := Real.sqrt_nonneg (b:ℝ)
  unfold sqrtLe
  by_cases hd : 0 ≤ d
  · have hd' : (0:ℝ) ≤ (d:ℝ) := by exact_mod_cast hd
    rw [if_pos hd, Bool.or_eq_true, decide_eq_true_eq, decide_eq_true_eq]
    have hy : (0:ℝ) ≤ (d:ℝ) + Real.sqrt b := by linarith
    have hexp : ((d:ℝ) + Real.sqrt b) ^ 2 =
        (d:ℝ) ^ 2 + (b:ℝ) + 2 * (d:ℝ) * Real.sqrt b := by
      rw [add_sq, Real.sq_sqrt hb']
      ring
    have hsq : (2 * (d:ℝ) * Real.sqrt b) ^ 2 = 4 * (d:ℝ) ^ 2 * (b:ℝ) := by
      rw [mul_pow, mul_pow, Real.sq_sqrt hb']
      ring
    have hR : (0:ℝ) ≤ 2 * (d:ℝ) * Real.sqrt b := by positivity
    rw [Real.sqrt_le_iff, hexp]
    constructor
    · rintro (h1 | h2)
      · have h1' : (a:ℝ) - (d:ℝ) ^ 2 - (b:ℝ) ≤ 0 := by exact_mod_cast h1
        exact ⟨hy, by linarith⟩
      · have h2' : ((a:ℝ) - (d:ℝ) ^ 2 - (b:ℝ)) ^ 2 ≤ 4 * (d:ℝ) ^ 2 * (b:ℝ) := by
          exact_mod_cast h2
        refine ⟨hy, ?_⟩
        by_cases hL : (a:ℝ) - (d:ℝ) ^ 2 - (b:ℝ) ≤ 0
        · linarith
        · push_neg at hL
          nlinarith [hsq]
    · rintro ⟨-, hle⟩
      by_cases hL : a - d ^ 2 - b ≤ 0
      · exact Or.inl hL
      · right
        push_neg at hL
        have hL' : (0:ℝ) < (a:ℝ) - (d:ℝ) ^ 2 - (b:ℝ) := by exact_mod_cast hL
        have h4 : ((a:ℝ) - (d:ℝ) ^ 2 - (b:ℝ)) ^ 2 ≤ 4 * (d:ℝ) ^ 2 * (b:ℝ) := by
          nlinarith [hsq]
        exact_mod_cast h4
  · rw [if_neg hd]
    push_neg at hd
    have hd' : (d:ℝ) < 0 := by exact_mod_cast hd
    by_cases hRneg : b - a - d ^ 2 < 0
    · rw [if_pos hRneg]
      simp only [Bool.false_eq_true, false_iff, not_le]
      have hRneg' : (b:ℝ) - (a:ℝ) - (d:ℝ) ^ 2 < 0 := by exact_mod_cast hRneg
      by_contra hcon
      push_neg at hcon
      have h1 : Real.sqrt a - d ≤ Real.sqrt b := by linarith
      have h2 : (0:ℝ) ≤ Real.sqrt a - d := by linarith
      have h3 : (Real.sqrt a - d) ^ 2 ≤ (Real.sqrt b) ^ 2 :=
        pow_le_pow_left₀ h2 h1 2
      rw [Real.sq_sqrt hb', sub_sq, Real.sq_sqrt ha'] at h3
      nlinarith [mul_nonneg hsa (le_of_lt (neg_pos.mpr hd'))]
    · rw [if_neg hRneg]
      push_neg at hRneg
      rw [decide_eq_true_eq]
      have hRr : (0:ℝ) ≤ (b:ℝ) - (a:ℝ) - (d:ℝ) ^ 2 := by exact_mod_cast hRneg
      have hkey : Real.sqrt (a:ℝ) ≤ (d:ℝ) + Real.sqrt b ↔
          2 * (-(d:ℝ)) * Real.sqrt a ≤ (b:ℝ) - (a:ℝ) - (d:ℝ) ^ 2 := by
        constructor
        · intro hcon
          have h1 : Real.sqrt a - d ≤ Real.sqrt b := by linarith
          have h2 : (0:ℝ) ≤ Real.sqrt a - d := by linarith
          have h3 : (Real.sqrt a - d) ^ 2 ≤ (Real.sqrt b) ^ 2 :=
            pow_le_pow_left₀ h2 h1 2
          rw [Real.sq_sqrt hb', sub_sq, Real.sq_sqrt ha'] at h3
          linarith
        · intro hle
          have h3 : (Real.sqrt a - d) ^ 2 ≤ (b:ℝ) := by
            rw [sub_sq, Real.sq_sqrt ha']
            linarith
          have h2 : (0:ℝ) ≤ Real.sqrt a - d := by linarith
          have h5 : Real.sqrt a - d ≤ Real.sqrt b :=
            (Real.le_sqrt h2 hb').mpr h3
          linarith
      rw [hkey]
      have hsq : (2 * (-(d:ℝ)) * Real.sqrt a) ^ 2 = 4 * (d:ℝ) ^ 2 * (a:ℝ) := by
        rw [mul_pow, mul_pow, Real.sq_sqrt ha']
        ring
      have hL : (0:ℝ) ≤ 2 * (-(d:ℝ)) * Real.sqrt a :=
        mul_nonneg (by linarith) hsa
      constructor
      · intro h4
        have h4' : 4 * (d:ℝ) ^ 2 * (a:ℝ) ≤ ((b:ℝ) - (a:ℝ) - (d:ℝ) ^ 2) ^ 2 := by
          exact_mod_cast h4
        nlinarith [hsq]
      · intro hle
        have h4' : 4 * (d:ℝ) ^ 2 * (a:ℝ) ≤ ((b:ℝ) - (a:ℝ) - (d:ℝ) ^ 2) ^ 2 := by
          nlinarith [hsq]
        exact_mod_cast h4'

/-! ### The canonical geodesic (toward optimality of the search) -/

/-- Chebyshev distance: the minimum number of 8-connected hops between two
cells when every move costs 1. -/
def chebDist (a b : Cell) : Nat :=
  max (b.1 - a.1).natAbs (b.2 - a.2).natAbs

/-- One diagonal-then-straight step from `c` toward `t`: move each
coordinate one unit toward the target until it matches. -/
def canonStep (c t : Cell) : Cell :=
  (c.1 + Int.sign (t.1 - c.1), c.2 + Int.sign (t.2 - c.2))

/-- The canonical geodesic: iterate `canonStep` from `s` toward `t`. -/
def canon (s t : Cell) : Nat → Cell
  | 0 => s
  | j + 1 => canonStep (canon s t j) t

theorem canonStep_natAbs_fst (c t : Cell) :
    (t.1 - (canonStep c t).1).natAbs = (t.1 - c.1).natAbs - 1 := by
  unfold canonStep
  rcases lt_trichotomy (t.1 - c.1) 0 with hlt | heq | hgt
  · rw [Int.sign_eq_neg_one_of_neg hlt]
    omega
  · rw [heq, Int.sign_zero]
    omega
  · rw [Int.sign_eq_one_of_pos hgt]
    omega

theorem canonStep_natAbs_snd (c t : Cell) :
    (t.2 - (canonStep c t).2).natAbs = (t.2 - c.2).natAbs - 1 := by
  unfold canonStep
  rcases lt_trichotomy (t.2 - c.2) 0 with hlt | heq | hgt
  · rw [Int.sign_eq_neg_one_of_neg hlt]
    omega
  · rw [heq, Int.sign_zero]
    omega
  · rw [Int.sign_eq_one_of_pos hgt]
    omega

theorem canon_natAbs (s t : Cell) (j : Nat) :
    (t.1 - (canon s t j).1).natAbs = (t.1 - s.1).natAbs - j ∧
    (t.2 - (canon s t j).2).natAbs = (t.2 - s.2).natAbs - j := by
  induction j with
  | zero => exact ⟨rfl, rfl⟩
  | succ j ih =>
    have hx := canonStep_natAbs_fst (canon s t j) t
    have hy := canonStep_natAbs_snd (canon s t j) t
    constructor
    · rw [show canon s t (j+1) = canonStep (canon s t j) t from rfl, hx, ih.1]
      omega
    · rw [show canon s t (j+1) = canonStep (canon s t j) t from rfl, hy, ih.2]
      omega

theorem canon_reaches (s t : Cell) : canon s t (chebDist s t) = t := by
  obtain ⟨h1, h2⟩ := canon_natAbs s t (chebDist s t)
  have hK : (t.1 - s.1).natAbs ≤ chebDist s t ∧
      (t.2 - s.2).natAbs ≤ chebDist s t := by
    unfold chebDist
    omega
  exact Prod.ext (by omega) (by omega)

theorem canon_ne (s t : Cell) (j : Nat) (hj : j < chebDist s t) :
    canon s t j ≠ t := by
  intro hcon
  have h := canon_natAbs s t j
  rw [hcon] at h
  unfold chebDist at hj
  omega

theorem canon_adjacent (s t : Cell) (j : Nat) (hj : j < chebDist s t) :
    adjacent8 (canon s t j) (canon s t (j + 1)) = true := by
  have hne := canon_ne s t j hj
  unfold adjacent8
  rw [decide_eq_true_eq]
  have hstep : canon s t (j + 1) = canonStep (canon s t j) t := rfl
  rw [hstep]
  unfold canonStep offsets
  have hnz : t.1 - (canon s t j).1 ≠ 0 ∨ t.2 - (canon s t j).2 ≠ 0 := by
    by_contra hcon
    push_neg at hcon
    exact hne (Prod.ext (by omega) (by omega))
  rcases Int.lt_trichotomy (t.1 - (canon s t j).1) 0 with h1 | h1 | h1 <;>
    rcases Int.lt_trichotomy (t.2 - (canon s t j).2) 0 with h2 | h2 | h2 <;>
    simp [Int.sign_eq_neg_one_of_neg, Int.sign_eq_one_of_pos, h1, h2,
      Int.sign_zero] <;>
    omega

theorem lastD_cons (a c : Cell) (rest : List Cell) :
    lastD a (c :: rest) = lastD c rest := by
  cases rest with
  | nil => rfl
  | cons d tl =>
    unfold lastD
    rw [List.getLast?_cons_cons, List.getLast?_eq_getLast _ (List.cons_ne_nil d tl)]
    rfl

theorem adjacent8_natAbs (a c : Cell) (hac : adjacent8 a c = true) :
    (c.1 - a.1).natAbs ≤ 1 ∧ (c.2 - a.2).natAbs ≤ 1 := by
  unfold adjacent8 offsets at hac
  rw [decide_eq_true_eq] at hac
  simp only [List.mem_cons, List.not_mem_nil, or_false] at hac
  rcases hac with h | h | h | h | h | h | h | h <;>
    · rw [Prod.mk.injEq] at h
      omega

theorem chebDist_le_adjacent (a c t : Cell) (hac : adjacent8 a c = true) :
    chebDist a t ≤ chebDist c t + 1 := by
  obtain ⟨h1, h2⟩ := adjacent8_natAbs a c hac
  unfold chebDist
  omega

theorem chainB_length_ge (w h : Nat) :
    ∀ (q : List Cell) (a t : Cell), chainB w h a q = true → lastD a q = t →
      chebDist a t ≤ q.length := by
  intro q
  induction q with
  | nil =>
    intro a t _ hlast
    rw [lastD_nil] at hlast
    rw [hlast]
    unfold chebDist
    simp
  | cons c rest ih =>
    intro a t hch hlast
    unfold chainB at hch
    rw [Bool.and_eq_true] at hch
    rw [lastD_cons] at hlast
    have hadj : adjacent8 a c = true :=
      (Bool.and_eq_true _ _ |>.mp hch.1).1
    have := ih c t hch.2 hlast
    have := chebDist_le_adjacent a c t hadj
    simp only [List.length_cons]
    omega

theorem canon_coord_bounds (s t : Cell) :
    ∀ j : Nat, 1 ≤ j →
      ((t.1 > s.1 → s.1 + 1 ≤ (canon s t j).1 ∧ (canon s t j).1 ≤ t.1) ∧
       (t.1 = s.1 → (canon s t j).1 = s.1) ∧
       (t.1 < s.1 → t.1 ≤ (canon s t j).1 ∧ (canon s t j).1 ≤ s.1 - 1)) ∧
      ((t.2 > s.2 → s.2 + 1 ≤ (canon s t j).2 ∧ (canon s t j).2 ≤ t.2) ∧
       (t.2 = s.2 → (canon s t j).2 = s.2) ∧
       (t.2 < s.2 → t.2 ≤ (canon s t j).2 ∧ (canon s t j).2 ≤ s.2 - 1)) := by
  intro j
  induction j with
  | zero => intro hj; omega
  | succ j ih =>
    intro _
    have hstep : canon s t (j + 1) = canonStep (canon s t j) t := rfl
    by_cases hj0 : j = 0
    · subst hj0
      have hc0 : canon s t 0 = s := rfl
      rw [hstep, hc0]
      unfold canonStep
      constructor
      · rcases lt_trichotomy (t.1 - s.1) 0 with h | h | h <;>
          simp only [Int.sign_eq_neg_one_of_neg, Int.sign_eq_one_of_pos, h,
            Int.sign_zero] <;>
          refine ⟨fun hgt => ?_, fun heq => ?_, fun hlt => ?_⟩ <;> omega
      · rcases lt_trichotomy (t.2 - s.2) 0 with h | h | h <;>
          simp only [Int.sign_eq_neg_one_of_neg, Int.sign_eq_one_of_pos, h,
            Int.sign_zero] <;>
          refine ⟨fun hgt => ?_, fun heq => ?_, fun hlt => ?_⟩ <;> omega
    · have ihj := ih (by omega)
      rw [hstep]
      unfold canonStep
      obtain ⟨⟨ix1, ix2, ix3⟩, ⟨iy1, iy2, iy3⟩⟩ := ihj
      constructor
      · rcases lt_trichotomy (t.1 - (canon s t j).1) 0 with h | h | h <;>
          simp only [Int.sign_eq_neg_one_of_neg, Int.sign_eq_one_of_pos, h,
            Int.sign_zero] <;>
          refine ⟨fun hgt => ?_, fun heq => ?_, fun hlt => ?_⟩ <;>
          [skip; skip; skip; skip; skip; skip; skip; skip; skip] <;>
          first
            | (exact absurd (ix1 (by omega)) (by omega))
            | (constructor <;> omega)
            | omega
      · rcases lt_trichotomy (t.2 - (canon s t j).2) 0 with h | h | h <;>
          simp only [Int.sign_eq_neg_one_of_neg, Int.sign_eq_one_of_pos, h,
            Int.sign_zero] <;>
          refine ⟨fun hgt => ?_, fun heq => ?_, fun hlt => ?_⟩ <;>
          first
            | (exact absurd (iy1 (by omega)) (by omega))
            | (constructor <;> omega)
            | omega

theorem canon_inBounds (w h : Nat) (s t : Cell)
    (hs1 : 0 ≤ s.1) (hs2 : s.1 ≤ (w : Int)) (hs3 : 0 ≤ s.2) (hs4 : s.2 ≤ (h : Int))
    (ht : inBoundsB w h t = true) (j : Nat) (hj : 1 ≤ j) :
    inBoundsB w h (canon s t j) = true := by
  obtain ⟨⟨ix1, ix2, ix3⟩, ⟨iy1, iy2, iy3⟩⟩ := canon_coord_bounds s t j hj
  unfold inBoundsB at ht ⊢
  simp only [Bool.and_eq_true, decide_eq_true_eq] at ht ⊢
  obtain ⟨⟨⟨ht1, ht2⟩, ht3⟩, ht4⟩ := ht
  have hx : 1 ≤ (canon s t j).1 ∧ (canon s t j).1 ≤ (w : Int) - 1 := by
    rcases lt_trichotomy t.1 s.1 with hc | hc | hc
    · have := ix3 hc; omega
    · have := ix2 hc; omega
    · have := ix1 hc; omega
  have hy : 1 ≤ (canon s t j).2 ∧ (canon s t j).2 ≤ (h : Int) - 1 := by
    rcases lt_trichotomy t.2 s.2 with hc | hc | hc
    · have := iy3 hc; omega
    · have := iy2 hc; omega
    · have := iy1 hc; omega
  exact ⟨⟨⟨by omega, by omega⟩, by omega⟩, by omega⟩

theorem hSq_nonneg (a b : Cell) : 0 ≤ hSq a b := by
  unfold hSq
  positivity

theorem hSq_natAbs (a b : Cell) :
    hSq a b = ((b.1 - a.1).natAbs : Int) ^ 2 + ((b.2 - a.2).natAbs : Int) ^ 2 := by
  unfold hSq
  rw [Int.natAbs_sq, Int.natAbs_sq]

/-- A diagonal step toward the goal shortens the Euclidean distance by at
least 1: `√(p² + q²) + 1 ≤ √((p+1)² + (q+1)²)` for `p, q ≥ 0`. -/
theorem sqrt_diag_drop (p q : ℝ) (hp : 0 ≤ p) (hq : 0 ≤ q) :
    Real.sqrt (p ^ 2 + q ^ 2) + 1 ≤ Real.sqrt ((p + 1) ^ 2 + (q + 1) ^ 2) := by
  have h1 : Real.sqrt (p ^ 2 + q ^ 2) ≤ p + q := by
    rw [show p + q = Real.sqrt ((p + q) ^ 2) from
      (Real.sqrt_sq (by linarith)).symm]
    apply Real.sqrt_le_sqrt
    nlinarith
  have h2 : (Real.sqrt (p ^ 2 + q ^ 2) + 1) ^ 2 ≤ (p + 1) ^ 2 + (q + 1) ^ 2 := by
    have hs := Real.sq_sqrt (by positivity : (0:ℝ) ≤ p ^ 2 + q ^ 2)
    nlinarith [Real.sqrt_nonneg (p ^ 2 + q ^ 2)]
  calc Real.sqrt (p ^ 2 + q ^ 2) + 1
      = Real.sqrt ((Real.sqrt (p ^ 2 + q ^ 2) + 1) ^ 2) :=
        (Real.sqrt_sq (by positivity)).symm
    _ ≤ Real.sqrt ((p + 1) ^ 2 + (q + 1) ^ 2) := Real.sqrt_le_sqrt h2

set_option maxHeartbeats 1000000 in
/-- One canonical step toward the goal shortens the Euclidean distance to
the goal by at least 1. -/
theorem canon_sqrt_step (s t : Cell) (j : Nat) (hj : j < chebDist s t) :
    Real.sqrt ((hSq (canon s t (j + 1)) t : ℝ)) + 1 ≤
      Real.sqrt ((hSq (canon s t j) t : ℝ)) := by
  obtain ⟨hPj, hQj⟩ := canon_natAbs s t j
  obtain ⟨hPj1, hQj1⟩ := canon_natAbs s t (j + 1)
  set X := (t.1 - s.1).natAbs with hX
  set Y := (t.2 - s.2).natAbs with hY
  have hmax : 1 ≤ max (X - j) (Y - j) := by
    unfold chebDist at hj
    omega
  have hA : (hSq (canon s t j) t : ℝ) =
      ((X - j : Nat) : ℝ) ^ 2 + ((Y - j : Nat) : ℝ) ^ 2 := by
    rw [hSq_natAbs, hPj, hQj]
    push_cast
    ring
  have hB : (hSq (canon s t (j + 1)) t : ℝ) =
      ((X - (j + 1) : Nat) : ℝ) ^ 2 + ((Y - (j + 1) : Nat) : ℝ) ^ 2 := by
    rw [hSq_natAbs, hPj1, hQj1]
    push_cast
    ring
  rw [hA, hB]
  by_cases hPz : X - j = 0
  · have hQpos : 1 ≤ Y - j := by omega
    have e1 : X - (j + 1) = 0 := by omega
    have e2 : ((Y - (j + 1) : Nat) : ℝ) = ((Y - j : Nat) : ℝ) - 1 := by
      have : Y - (j + 1) + 1 = Y - j := by omega
      rw [← this]
      push_cast
      ring
    rw [hPz, e1, e2]
    have hge : (1:ℝ) ≤ ((Y - j : Nat) : ℝ) := by exact_mod_cast hQpos
    rw [show ((0:Nat):ℝ) = 0 by norm_num]
    have hv : (0:ℝ) ≤ ((Y - j : Nat) : ℝ) - 1 := by linarith
    rw [show (0:ℝ) ^ 2 + (((Y - j : Nat) : ℝ) - 1) ^ 2 =
        (((Y - j : Nat) : ℝ) - 1) ^ 2 by ring]
    rw [show (0:ℝ) ^ 2 + ((Y - j : Nat) : ℝ) ^ 2 =
        ((Y - j : Nat) : ℝ) ^ 2 by ring]
    rw [Real.sqrt_sq hv, Real.sqrt_sq (by linarith)]
    linarith
  · by_cases hQz : Y - j = 0
    · have hPpos : 1 ≤ X - j := by omega
      have e1 : Y - (j + 1) = 0 := by omega
      have e2 : ((X - (j + 1) : Nat) : ℝ) = ((X - j : Nat) : ℝ) - 1 := by
        have : X - (j + 1) + 1 = X - j := by omega
        rw [← this]
        push_cast
        ring
      rw [hQz, e1, e2]
      have hge : (1:ℝ) ≤ ((X - j : Nat) : ℝ) := by exact_mod_cast hPpos
      rw [show ((0:Nat):ℝ) = 0 by norm_num]
      have hv : (0:ℝ) ≤ ((X - j : Nat) : ℝ) - 1 := by linarith
      rw [show (((X - j : Nat) : ℝ) - 1) ^ 2 + (0:ℝ) ^ 2 =
          (((X - j : Nat) : ℝ) - 1) ^ 2 by ring]
      rw [show ((X - j : Nat) : ℝ) ^ 2 + (0:ℝ) ^ 2 =
          ((X - j : Nat) : ℝ) ^ 2 by ring]
      rw [Real.sqrt_sq hv, Real.sqrt_sq (by linarith)]
      linarith
    · have hPpos : 1 ≤ X - j := by omega
      have hQpos : 1 ≤ Y - j := by omega
      have e1 : ((X - j : Nat) : ℝ) = ((X - (j + 1) : Nat) : ℝ) + 1 := by
        have : X - (j + 1) + 1 = X - j := by omega
        rw [← this]
        push_cast
        ring
      have e2 : ((Y - j : Nat) : ℝ) = ((Y - (j + 1) : Nat) : ℝ) + 1 := by
        have : Y - (j + 1) + 1 = Y - j := by omega
        rw [← this]
        push_cast
        ring
      rw [e1, e2]
      exact sqrt_diag_drop _ _ (by positivity) (by positivity)

/-- Iterated canonical steps: `m` steps shorten the Euclidean distance to
the goal by at least `m`. -/
theorem canon_sqrt_steps (s t : Cell) :
    ∀ (m j : Nat), j + m ≤ chebDist s t →
      Real.sqrt ((hSq (canon s t (j + m)) t : ℝ)) + (m : ℝ) ≤
        Real.sqrt ((hSq (canon s t j) t : ℝ)) := by
  intro m
  induction m with
  | zero =>
    intro j _
    simp
  | succ m ih =>
    intro j hjm
    have h1 := ih (j + 1) (by omega)
    have h2 := canon_sqrt_step s t j (by unfold chebDist at hjm ⊢; omega)
    have e : j + 1 + m = j + (m + 1) := by omega
    rw [e] at h1
    push_cast
    linarith

theorem adjacent8_cases (a c : Cell) (hac : adjacent8 a c = true) :
    (c.1 - a.1 = -1 ∨ c.1 - a.1 = 0 ∨ c.1 - a.1 = 1) ∧
    (c.2 - a.2 = -1 ∨ c.2 - a.2 = 0 ∨ c.2 - a.2 = 1) ∧
    ¬(c.1 - a.1 = 0 ∧ c.2 - a.2 = 0) := by
  unfold adjacent8 offsets at hac
  rw [decide_eq_true_eq] at hac
  simp only [List.mem_cons, List.not_mem_nil, or_false] at hac
  rcases hac with h | h | h | h | h | h | h | h <;>
    · rw [Prod.mk.injEq] at h
      omega

theorem sign_sq_min_le (u d : Int) (hd : d = -1 ∨ d = 0 ∨ d = 1) :
    (u - Int.sign u) ^ 2 ≤ (u - d) ^ 2 := by
  rcases lt_trichotomy u 0 with h | h | h
  · rw [Int.sign_eq_neg_one_of_neg h]
    rcases hd with rfl | rfl | rfl <;> nlinarith
  · rw [h, Int.sign_zero]
    rcases hd with rfl | rfl | rfl <;> nlinarith
  · rw [Int.sign_eq_one_of_pos h]
    rcases hd with rfl | rfl | rfl <;> nlinarith

theorem sign_sq_min_strict (u d : Int) (hd : d = -1 ∨ d = 0 ∨ d = 1)
    (hne : d ≠ Int.sign u) : (u - Int.sign u) ^ 2 < (u - d) ^ 2 := by
  rcases lt_trichotomy u 0 with h | h | h
  · rw [Int.sign_eq_neg_one_of_neg h] at hne ⊢
    rcases hd with rfl | rfl | rfl
    · exact absurd rfl hne
    · nlinarith
    · nlinarith
  · rw [h, Int.sign_zero] at hne ⊢
    rcases hd with rfl | rfl | rfl
    · nlinarith
    · exact absurd rfl hne
    · nlinarith
  · rw [Int.sign_eq_one_of_pos h] at hne ⊢
    rcases hd with rfl | rfl | rfl
    · nlinarith
    · nlinarith
    · exact absurd rfl hne

/-- The canonical next cell is the strict minimizer of the squared
Euclidean distance to the goal among all 8 neighbors of the current
canonical cell. -/
theorem canon_neighbor_min (s t : Cell) (j : Nat) (hj : j < chebDist s t)
    (y : Cell) (hadj : adjacent8 (canon s t j) y = true)
    (hy : y ≠ canon s t (j + 1)) :
    hSq (canon s t (j + 1)) t < hSq y t := by
  have hstep : canon s t (j + 1) = canonStep (canon s t j) t := rfl
  obtain ⟨hdx, hdy, -⟩ := adjacent8_cases (canon s t j) y hadj
  have hA : hSq (canon s t (j + 1)) t =
      (t.1 - (canon s t j).1 - Int.sign (t.1 - (canon s t j).1)) ^ 2 +
      (t.2 - (canon s t j).2 - Int.sign (t.2 - (canon s t j).2)) ^ 2 := by
    rw [hstep]
    unfold canonStep hSq
    ring
  have hB : hSq y t =
      (t.1 - (canon s t j).1 - (y.1 - (canon s t j).1)) ^ 2 +
      (t.2 - (canon s t j).2 - (y.2 - (canon s t j).2)) ^ 2 := by
    unfold hSq
    ring
  rw [hA, hB]
  by_cases hx : y.1 - (canon s t j).1 = Int.sign (t.1 - (canon s t j).1)
  · have hyne : y.2 - (canon s t j).2 ≠ Int.sign (t.2 - (canon s t j).2) := by
      intro hcon
      apply hy
      rw [hstep]
      unfold canonStep
      exact Prod.ext (by omega) (by omega)
    have h1 := sign_sq_min_le (t.1 - (canon s t j).1) (y.1 - (canon s t j).1) hdx
    have h2 := sign_sq_min_strict (t.2 - (canon s t j).2)
      (y.2 - (canon s t j).2) hdy hyne
    linarith
  · have h1 := sign_sq_min_strict (t.1 - (canon s t j).1)
      (y.1 - (canon s t j).1) hdx hx
    have h2 := sign_sq_min_le (t.2 - (canon s t j).2) (y.2 - (canon s t j).2) hdy
    linarith

/-- The geometric dominance inequality: any neighbor `y` of the `j`-th
canonical cell other than the canonical successor is strictly farther
from the goal than the `(k+1)`-st canonical cell, by more than the
difference `k - j` of accumulated costs. -/
theorem gem (s t : Cell) (j k : Nat) (hjk : j ≤ k) (hk : k < chebDist s t)
    (y : Cell) (hadj : adjacent8 (canon s t j) y = true)
    (hy : y ≠ canon s t (j + 1)) :
    Real.sqrt ((hSq (canon s t (k + 1)) t : ℝ)) + ((k - j : Nat) : ℝ) <
      Real.sqrt ((hSq y t : ℝ)) := by
  have h1 : hSq (canon s t (j + 1)) t < hSq y t :=
    canon_neighbor_min s t j (by omega) y hadj hy
  have h2 : Real.sqrt ((hSq (canon s t (j + 1)) t : ℝ)) <
      Real.sqrt ((hSq y t : ℝ)) := by
    apply Real.sqrt_lt_sqrt
    · exact_mod_cast hSq_nonneg (canon s t (j + 1)) t
    · exact_mod_cast h1
  have h3 := canon_sqrt_steps s t (k - j) (j + 1) (by omega)
  have he : j + 1 + (k - j) = k + 1 := by omega
  rw [he] at h3
  linarith

/-- The boolean priority comparison agrees with the real-valued
`f = g + √hSq` comparison. -/
theorem fLe_iff (t : Cell) (e1 e2 : Entry) :
    fLe t e1 e2 = true ↔
      (e1.2.length : ℝ) + Real.sqrt ((hSq e1.1 t : ℝ)) ≤
      (e2.2.length : ℝ) + Real.sqrt ((hSq e2.1 t : ℝ)) := by
  unfold fLe
  rw [sqrtLe_correct _ _ _ (hSq_nonneg e1.1 t) (hSq_nonneg e2.1 t)]
  push_cast
  constructor <;> intro h <;> linarith

theorem fLt_iff (t : Cell) (e1 e2 : Entry) :
    fLt t e1 e2 = true ↔
      (e1.2.length : ℝ) + Real.sqrt ((hSq e1.1 t : ℝ)) <
      (e2.2.length : ℝ) + Real.sqrt ((hSq e2.1 t : ℝ)) := by
  unfold fLt
  rw [Bool.not_eq_true']
  rw [← Bool.not_eq_true (fLe t e2 e1)]
  rw [fLe_iff]
  constructor
  · intro h
    exact lt_of_not_le h
  · intro h
    exact not_le_of_lt h

theorem fLt_asymm (t : Cell) (a b : Entry) (h1 : fLt t a b = true)
    (h2 : fLt t b a = true) : False := by
  rw [fLt_iff] at h1 h2
  linarith

theorem selectMinAux_strict (goal : Cell) (estar : Entry) :
    ∀ (b : Entry) (l : List Entry), (estar = b ∨ estar ∈ l) →
      (∀ e, (e = b ∨ e ∈ l) → e ≠ estar → fLt goal estar e = true) →
      (selectMinAux goal b l).1 = estar := by
  intro b l
  induction l generalizing b with
  | nil =>
    intro hmem _
    rcases hmem with h | h
    · rw [← h]; rfl
    · cases h
  | cons e rest ih =>
    intro hmem hdom
    have hdome : ∀ x, (x = e ∨ x ∈ rest) → x ≠ estar → fLt goal estar x = true := by
      intro x hx hne
      rcases hx with h | h
      · exact hdom x (Or.inr (h ▸ List.mem_cons_self e rest)) hne
      · exact hdom x (Or.inr (List.mem_cons_of_mem e h)) hne
    by_cases hc : fLt goal e b = true
    · have hsel : selectMinAux goal b (e :: rest) =
          ((selectMinAux goal e rest).1, b :: (selectMinAux goal e rest).2) := by
        simp only [selectMinAux, hc, if_true]
      rw [hsel]
      apply ih e
      · rcases hmem with h | h
        · by_cases heb : e = estar
          · exact Or.inl heb.symm
          · exfalso
            exact fLt_asymm goal estar e
              (hdom e (Or.inr (List.mem_cons_self e rest)) heb)
              (h ▸ hc)
        · rcases List.mem_cons.mp h with h1 | h1
          · exact Or.inl h1
          · exact Or.inr h1
      · exact hdome
    · have hsel : selectMinAux goal b (e :: rest) =
          ((selectMinAux goal b rest).1, e :: (selectMinAux goal b rest).2) := by
        simp only [selectMinAux, hc, Bool.false_eq_true, if_false]
      rw [hsel]
      apply ih b
      · rcases hmem with h | h
        · exact Or.inl h
        · rcases List.mem_cons.mp h with h1 | h1
          · by_cases hbe : b = estar
            · exact Or.inl hbe.symm
            · exfalso
              apply hc
              rw [← h1]
              exact hdom b (Or.inl rfl) hbe
          · exact Or.inr h1
      · intro x hx hne
        rcases hx with h | h
        · exact hdom x (Or.inl h) hne
        · exact hdom x (Or.inr (List.mem_cons_of_mem e h)) hne

theorem chebDist_pos (s t : Cell) (hst : s ≠ t) : 1 ≤ chebDist s t := by
  unfold chebDist
  by_contra hcon
  push_neg at hcon
  exact hst (Prod.ext (by omega) (by omega))

theorem canon_inj (s t : Cell) (i j : Nat) (hi : i ≤ chebDist s t)
    (hj : j ≤ chebDist s t) (hne : i ≠ j) : canon s t i ≠ canon s t j := by
  intro hcon
  obtain ⟨hx1, hy1⟩ := canon_natAbs s t i
  obtain ⟨hx2, hy2⟩ := canon_natAbs s t j
  rw [hcon] at hx1 hy1
  unfold chebDist at hi hj
  omega

theorem canon_not_adjacent_far (s t : Cell) (i j : Nat) (hfar : j + 2 ≤ i)
    (hi : i ≤ chebDist s t) :
    adjacent8 (canon s t j) (canon s t i) = false := by
  by_contra hcon
  rw [Bool.not_eq_false] at hcon
  obtain ⟨ha1, ha2⟩ := adjacent8_natAbs (canon s t j) (canon s t i) hcon
  obtain ⟨hx1, hy1⟩ := canon_natAbs s t i
  obtain ⟨hx2, hy2⟩ := canon_natAbs s t j
  have hd1 : (t.1 - (canon s t j).1) - (t.1 - (canon s t i).1) =
      (canon s t i).1 - (canon s t j).1 := by ring
  have hd2 : (t.2 - (canon s t j).2) - (t.2 - (canon s t i).2) =
      (canon s t i).2 - (canon s t j).2 := by ring
  unfold chebDist at hi
  omega

theorem neighbors_nodup (w h : Nat) (c : Cell) : (neighbors w h c).Nodup := by
  unfold neighbors
  apply List.Nodup.filter
  apply List.Nodup.map
  · intro d1 d2 heq
    rw [Prod.mk.injEq] at heq
    exact Prod.ext (by omega) (by omega)
  · unfold offsets
    decide

theorem updateEntry_fresh (n : Cell) (q : List Cell) :
    ∀ l : List Entry, n ∉ l.map Prod.fst → (n, q) ∈ updateEntry n q l := by
  intro l
  induction l with
  | nil => intro _; exact List.mem_singleton.mpr rfl
  | cons hd tl ih =>
    intro hn
    obtain ⟨c, r⟩ := hd
    rw [List.map_cons, List.mem_cons] at hn
    push_neg at hn
    unfold updateEntry
    rw [if_neg (fun hcn => hn.1 hcn.symm)]
    exact List.mem_cons_of_mem _ (ih hn.2)

theorem updateEntry_preserve (n c0 : Cell) (q q0 : List Cell)
    (hne : c0 ≠ n) :
    ∀ l : List Entry, (c0, q0) ∈ l → (c0, q0) ∈ updateEntry n q l := by
  intro l
  induction l with
  | nil => intro hc; cases hc
  | cons hd tl ih =>
    intro hc
    obtain ⟨c, r⟩ := hd
    unfold updateEntry
    rcases List.mem_cons.mp hc with h1 | h1
    · rw [Prod.mk.injEq] at h1
      rw [if_neg (fun hcn => hne (h1.1.trans hcn))]
      have heq : ((c0, q0) : Entry) = (c, r) := Prod.ext h1.1 h1.2
      rw [heq]
      exact List.mem_cons_self _ _
    · by_cases hcn : c = n
      · rw [if_pos hcn]
        exact List.mem_cons_of_mem _ h1
      · rw [if_neg hcn]
        exact List.mem_cons_of_mem _ (ih h1)

theorem updateEntry_not_fst (n c0 : Cell) (q : List Cell) (hne : c0 ≠ n) :
    ∀ l : List Entry, c0 ∉ l.map Prod.fst →
      c0 ∉ (updateEntry n q l).map Prod.fst := by
  intro l hc0
  rw [updateEntry_map_fst]
  by_cases hm : n ∈ l.map Prod.fst
  · rw [if_pos hm]; exact hc0
  · rw [if_neg hm]
    rw [List.mem_append, List.mem_singleton]
    push_neg
    exact ⟨hc0, hne⟩

theorem relaxAll_mem (closed p : List Cell) :
    ∀ (ns : List Cell) (op : List Entry) (e : Entry),
      e ∈ relaxAll closed p ns op →
      e ∈ op ∨ ∃ n, n ∈ ns ∧ n ∉ closed ∧ e = (n, p ++ [n]) := by
  intro ns
  induction ns with
  | nil => intro op e he; exact Or.inl he
  | cons n rest ih =>
    intro op e he
    have hstep : relaxAll closed p (n :: rest) op =
        relaxAll closed p rest
          (if n ∈ closed then op else updateEntry n (p ++ [n]) op) := rfl
    rw [hstep] at he
    rcases ih _ e he with h1 | ⟨n', hn1, hn2, hn3⟩
    · by_cases hmem : n ∈ closed
      · rw [if_pos hmem] at h1
        exact Or.inl h1
      · rw [if_neg hmem] at h1
        rcases updateEntry_mem n (p ++ [n]) op e h1 with h2 | h2
        · exact Or.inl h2
        · exact Or.inr ⟨n, List.mem_cons_self _ _, hmem, h2⟩
    · exact Or.inr ⟨n', List.mem_cons_of_mem _ hn1, hn2, hn3⟩

theorem relaxAll_fst_nodup (closed p : List Cell) :
    ∀ (ns : List Cell) (op : List Entry), (op.map Prod.fst).Nodup →
      ((relaxAll closed p ns op).map Prod.fst).Nodup := by
  intro ns
  induction ns with
  | nil => intro op hop; exact hop
  | cons n rest ih =>
    intro op hop
    have hstep : relaxAll closed p (n :: rest) op =
        relaxAll closed p rest
          (if n ∈ closed then op else updateEntry n (p ++ [n]) op) := rfl
    rw [hstep]
    apply ih
    by_cases hmem : n ∈ closed
    · rw [if_pos hmem]; exact hop
    · rw [if_neg hmem]
      exact updateEntry_fst_nodup n (p ++ [n]) op hop

theorem relaxAll_keep (closed p : List Cell) (c0 : Cell) (q0 : List Cell) :
    ∀ (ns : List Cell) (op : List Entry), c0 ∉ ns → (c0, q0) ∈ op →
      (c0, q0) ∈ relaxAll closed p ns op := by
  intro ns
  induction ns with
  | nil => intro op _ hin; exact hin
  | cons n rest ih =>
    intro op hnotin hin
    rw [List.mem_cons] at hnotin
    push_neg at hnotin
    have hstep : relaxAll closed p (n :: rest) op =
        relaxAll closed p rest
          (if n ∈ closed then op else updateEntry n (p ++ [n]) op) := rfl
    rw [hstep]
    apply ih _ hnotin.2
    by_cases hmem : n ∈ closed
    · rw [if_pos hmem]; exact hin
    · rw [if_neg hmem]
      exact updateEntry_preserve n c0 (p ++ [n]) q0 hnotin.1 op hin

theorem relaxAll_adds (closed p : List Cell) (n0 : Cell) :
    ∀ (ns : List Cell) (op : List Entry), ns.Nodup → n0 ∈ ns → n0 ∉ closed →
      n0 ∉ op.map Prod.fst → (n0, p ++ [n0]) ∈ relaxAll closed p ns op := by
  intro ns
  induction ns with
  | nil => intro op _ hmem; cases hmem
  | cons n rest ih =>
    intro op hnodup hmem hncl hnop
    have hstep : relaxAll closed p (n :: rest) op =
        relaxAll closed p rest
          (if n ∈ closed then op else updateEntry n (p ++ [n]) op) := rfl
    rw [hstep]
    rw [List.nodup_cons] at hnodup
    rcases List.mem_cons.mp hmem with h1 | h1
    · rw [← h1] at hnodup
      apply relaxAll_keep closed p n0 (p ++ [n0]) rest _ hnodup.1
      rw [← h1]
      rw [if_neg (h1 ▸ hncl)]
      exact updateEntry_fresh n0 (p ++ [n0]) op (h1 ▸ hnop)
    · apply ih _ hnodup.2 h1 hncl
      by_cases hmem2 : n ∈ closed
      · rw [if_pos hmem2]; exact hnop
      · rw [if_neg hmem2]
        have hne : n0 ≠ n := fun hcon => hnodup.1 (hcon ▸ h1)
        exact updateEntry_not_fst n n0 (p ++ [n]) hne op hnop

theorem nodup_fst_entry_unique (op : List Entry)
    (hnd : (op.map Prod.fst).Nodup) (e1 e2 : Entry) (h1 : e1 ∈ op)
    (h2 : e2 ∈ op) (hfst : e1.1 = e2.1) : e1 = e2 := by
  induction op with
  | nil => cases h1
  | cons hd tl ih =>
    rw [List.map_cons, List.nodup_cons] at hnd
    rcases List.mem_cons.mp h1 with ha | ha <;>
      rcases List.mem_cons.mp h2 with hb | hb
    · rw [ha, hb]
    · exfalso
      apply hnd.1
      have h3 : hd.1 = e2.1 := by rw [← ha, hfst]
      rw [h3]
      exact List.mem_map_of_mem Prod.fst hb
    · exfalso
      apply hnd.1
      have h3 : hd.1 = e1.1 := by rw [← hb, ← hfst]
      rw [h3]
      exact List.mem_map_of_mem Prod.fst ha
    · exact ih hnd.2 ha hb

/-- The zip invariant: after the canonical cells `σ_0 … σ_k` have been
popped, the closed list is exactly that prefix, the open list has an
entry for `σ_{k+1}` whose recorded cost is exactly `k+1`, and every other
open entry was discovered from some popped canonical cell `σ_j` as an
off-path neighbor, with recorded cost at least `j+1`. -/
def ZInv (s t : Cell) (k : Nat) (op : List Entry) (closed : List Cell) : Prop :=
  (∀ x, x ∈ closed ↔ ∃ j, j ≤ k ∧ x = canon s t j) ∧
  (op.map Prod.fst).Nodup ∧
  (∃ p, (canon s t (k + 1), p) ∈ op ∧ p.length = k + 1) ∧
  (∀ e ∈ op, e.1 ≠ canon s t (k + 1) →
    ∃ j, j ≤ k ∧ adjacent8 (canon s t j) e.1 = true ∧
      e.1 ≠ canon s t (j + 1) ∧ j + 1 ≤ e.2.length)

/-- Strict priority dominance: under the zip invariant the `σ_{k+1}`
entry has strictly smaller `f` than every other open entry, so the
best-first selection must pop it next whatever the tie-breaking. -/
theorem zip_dominance (s t : Cell) (k : Nat) (hk : k < chebDist s t)
    (op : List Entry) (closed : List Cell) (hinv : ZInv s t k op closed)
    (p : List Cell) (hp : (canon s t (k + 1), p) ∈ op) (hlen : p.length = k + 1)
    (e : Entry) (he : e ∈ op) (hne : e ≠ (canon s t (k + 1), p)) :
    fLt t (canon s t (k + 1), p) e = true := by
  have hcell : e.1 ≠ canon s t (k + 1) := by
    intro hcon
    exact hne (nodup_fst_entry_unique op hinv.2.1 e _ he hp hcon)
  obtain ⟨j, hj, hadj, hnext, hglen⟩ := hinv.2.2.2 e he hcell
  rw [fLt_iff]
  have hg := gem s t j k hj hk e.1 hadj hnext
  have hc1 : ((k - j : ℕ) : ℝ) = (k : ℝ) - (j : ℝ) := by
    rw [Nat.cast_sub hj]
  have hc2 : ((p.length : ℕ) : ℝ) = (k : ℝ) + 1 := by
    rw [hlen]
    push_cast
    ring
  have hc3 : ((j : ℝ) + 1) ≤ (e.2.length : ℝ) := by
    exact_mod_cast hglen
  rw [hc1] at hg
  simp only [hc2]
  linarith

/-- Relaxing the neighbors of the freshly popped canonical cell
re-establishes the zip invariant one step further along the path. -/
theorem zip_relax (w h : Nat) (s t : Cell)
    (hs1 : 0 ≤ s.1) (hs2 : s.1 ≤ (w : Int)) (hs3 : 0 ≤ s.2) (hs4 : s.2 ≤ (h : Int))
    (ht : inBoundsB w h t = true)
    (k : Nat) (hk1 : k + 1 < chebDist s t)
    (closed : List Cell) (p : List Cell) (others : List Entry)
    (hclosed : ∀ x, x ∈ closed ↔ ∃ j, j ≤ k ∧ x = canon s t j)
    (hnodup : (others.map Prod.fst).Nodup)
    (_hnotin : canon s t (k + 1) ∉ others.map Prod.fst)
    (hplen : p.length = k + 1)
    (hwit : ∀ e ∈ others, ∃ j, j ≤ k ∧ adjacent8 (canon s t j) e.1 = true ∧
      e.1 ≠ canon s t (j + 1) ∧ j + 1 ≤ e.2.length) :
    ZInv s t (k + 1)
      (relaxAll (canon s t (k + 1) :: closed) p
        (neighbors w h (canon s t (k + 1))) others)
      (canon s t (k + 1) :: closed) := by
  have hσ2adj : adjacent8 (canon s t (k + 1)) (canon s t (k + 2)) = true := by
    have := canon_adjacent s t (k + 1) (by omega)
    exact this
  have hσ2in : inBoundsB w h (canon s t (k + 2)) = true :=
    canon_inBounds w h s t hs1 hs2 hs3 hs4 ht (k + 2) (by omega)
  have hσ2mem : canon s t (k + 2) ∈ neighbors w h (canon s t (k + 1)) := by
    rw [mem_neighbors_iff]
    unfold isNeighborB
    rw [Bool.and_eq_true]
    exact ⟨hσ2adj, hσ2in⟩
  have hσ2ne1 : canon s t (k + 2) ≠ canon s t (k + 1) :=
    canon_inj s t (k + 2) (k + 1) (by omega) (by omega) (by omega)
  have hσ2closed : canon s t (k + 2) ∉ canon s t (k + 1) :: closed := by
    rw [List.mem_cons]
    push_neg
    refine ⟨hσ2ne1, ?_⟩
    intro hmem
    obtain ⟨j, hj, heq⟩ := (hclosed _).mp hmem
    exact canon_inj s t (k + 2) j (by omega) (by omega) (by omega) heq
  have hσ2others : canon s t (k + 2) ∉ others.map Prod.fst := by
    intro hcon
    rw [List.mem_map] at hcon
    obtain ⟨e, he, hfst⟩ := hcon
    obtain ⟨j, hj, hadj, -, -⟩ := hwit e he
    rw [hfst] at hadj
    have hfar := canon_not_adjacent_far s t (k + 2) j (by omega) (by omega)
    rw [hfar] at hadj
    cases hadj
  refine ⟨?_, ?_, ?_, ?_⟩
  · intro x
    rw [List.mem_cons, hclosed x]
    constructor
    · rintro (h1 | ⟨j, hj, hx⟩)
      · exact ⟨k + 1, le_refl _, h1⟩
      · exact ⟨j, by omega, hx⟩
    · rintro ⟨j, hj, hx⟩
      by_cases hjk : j = k + 1
      · exact Or.inl (hjk ▸ hx)
      · exact Or.inr ⟨j, by omega, hx⟩
  · exact relaxAll_fst_nodup _ _ _ _ hnodup
  · refine ⟨p ++ [canon s t (k + 2)], ?_, ?_⟩
    · exact relaxAll_adds _ _ _ _ _ (neighbors_nodup w h _) hσ2mem
        hσ2closed hσ2others
    · rw [List.length_append, hplen]
      rfl
  · intro e he hne2
    rcases relaxAll_mem _ _ _ _ e he with hold | ⟨n, hnmem, hncl, heq⟩
    · obtain ⟨j, hj, hadj, hnext, hlen⟩ := hwit e hold
      exact ⟨j, by omega, hadj, hnext, hlen⟩
    · refine ⟨k + 1, le_refl _, ?_, ?_, ?_⟩
      · rw [heq]
        have := (mem_neighbors_iff w h _ n).mp hnmem
        unfold isNeighborB at this
        rw [Bool.and_eq_true] at this
        exact this.1
      · rw [heq]
        intro hcon
        apply hne2
        rw [heq]
        exact hcon
      · rw [heq]
        simp only [List.length_append, hplen, List.length_singleton]
        omega

/-- One iteration of the search loop under the zip invariant: either the
goal is popped with a path of exactly the Chebyshev length, or the
canonical successor is popped and the invariant advances one step. -/
theorem zip_step (w h : Nat) (s t : Cell)
    (hs1 : 0 ≤ s.1) (hs2 : s.1 ≤ (w : Int)) (hs3 : 0 ≤ s.2) (hs4 : s.2 ≤ (h : Int))
    (ht : inBoundsB w h t = true)
    (k f : Nat) (hk : k < chebDist s t)
    (op : List Entry) (closed : List Cell) (hinv : ZInv s t k op closed) :
    (k + 1 = chebDist s t ∧
      ∃ p, astarLoop w h t (f + 1) op closed = some (some p) ∧
        p.length = chebDist s t) ∨
    (k + 1 < chebDist s t ∧ ∃ op' closed',
      astarLoop w h t (f + 1) op closed = astarLoop w h t f op' closed' ∧
      ZInv s t (k + 1) op' closed') := by
  obtain ⟨hclosed, hnodup, ⟨p, hpmem, hplen⟩, hwit⟩ := hinv
  cases op with
  | nil => cases hpmem
  | cons e0 rest =>
    have hsel : (selectMinAux t e0 rest).1 = (canon s t (k + 1), p) := by
      apply selectMinAux_strict
      · rcases List.mem_cons.mp hpmem with hh | hh
        · exact Or.inl hh
        · exact Or.inr hh
      · intro e hemem hne
        refine zip_dominance s t k hk (e0 :: rest) closed
          ⟨hclosed, hnodup, ⟨p, hpmem, hplen⟩, hwit⟩ p hpmem hplen e ?_ hne
        rcases hemem with hh | hh
        · rw [hh]; exact List.mem_cons_self _ _
        · exact List.mem_cons_of_mem _ hh
    have hfst : (selectMinAux t e0 rest).1.1 = canon s t (k + 1) :=
      congrArg Prod.fst hsel
    have hsnd : (selectMinAux t e0 rest).1.2 = p :=
      congrArg Prod.snd hsel
    have hperm := selectMinAux_perm t e0 rest
    rw [hsel] at hperm
    have hnd2 : (((canon s t (k + 1), p) :: (selectMinAux t e0 rest).2).map
        Prod.fst).Nodup := (hperm.map Prod.fst).nodup_iff.mpr hnodup
    rw [List.map_cons, List.nodup_cons] at hnd2
    by_cases hend : k + 1 = chebDist s t
    · left
      refine ⟨hend, (selectMinAux t e0 rest).1.2, ?_, ?_⟩
      · simp only [astarLoop]
        rw [if_pos (by rw [hfst, hend]; exact canon_reaches s t)]
      · rw [hsnd, hplen, hend]
    · right
      have hlt : k + 1 < chebDist s t := by omega
      refine ⟨hlt,
        relaxAll ((selectMinAux t e0 rest).1.1 :: closed)
          (selectMinAux t e0 rest).1.2
          (neighbors w h (selectMinAux t e0 rest).1.1)
          (selectMinAux t e0 rest).2,
        (selectMinAux t e0 rest).1.1 :: closed, ?_, ?_⟩
      · simp only [astarLoop]
        rw [if_neg (by rw [hfst]; exact canon_ne s t (k + 1) hlt)]
      · rw [hfst, hsnd]
        apply zip_relax w h s t hs1 hs2 hs3 hs4 ht k hlt closed p
          (selectMinAux t e0 rest).2 hclosed hnd2.2 hnd2.1 hplen
        intro e he
        have hemem : e ∈ e0 :: rest := hperm.mem_iff.mp (List.mem_cons_of_mem _ he)
        have hne : e.1 ≠ canon s t (k + 1) := by
          intro hcon
          have hm : e.1 ∈ (selectMinAux t e0 rest).2.map Prod.fst :=
            List.mem_map_of_mem Prod.fst he
          rw [hcon] at hm
          exact hnd2.1 hm
        exact hwit e hemem hne

theorem zip_run (w h : Nat) (s t : Cell)
    (hs1 : 0 ≤ s.1) (hs2 : s.1 ≤ (w : Int)) (hs3 : 0 ≤ s.2) (hs4 : s.2 ≤ (h : Int))
    (ht : inBoundsB w h t = true) :
    ∀ (f k : Nat) (op : List Entry) (closed : List Cell),
      k < chebDist s t → chebDist s t - k < f →
      ZInv s t k op closed →
      ∃ p, astarLoop w h t f op closed = some (some p) ∧
        p.length = chebDist s t := by
  intro f
  induction f with
  | zero =>
    intro k op closed hk hfuel _
    omega
  | succ f ih =>
    intro k op closed hk hfuel hinv
    rcases zip_step w h s t hs1 hs2 hs3 hs4 ht k f hk op closed hinv with
      ⟨-, pp, hloop, hlen⟩ | ⟨hlt, op', closed', heq, hinv'⟩
    · exact ⟨pp, hloop, hlen⟩
    · rw [heq]
      exact ih (k + 1) op' closed' hlt (by omega) hinv'

theorem zip_start (w h : Nat) (s t : Cell)
    (hs1 : 0 ≤ s.1) (hs2 : s.1 ≤ (w : Int)) (hs3 : 0 ≤ s.2) (hs4 : s.2 ≤ (h : Int))
    (ht : inBoundsB w h t = true) (hst : s ≠ t) :
    ZInv s t 0 (relaxAll [s] [] (neighbors w h s) []) [s] := by
  have hK : 1 ≤ chebDist s t := chebDist_pos s t hst
  have hc0 : canon s t 0 = s := rfl
  have hadj : adjacent8 s (canon s t 1) = true := by
    have := canon_adjacent s t 0 (by omega)
    rw [hc0] at this
    exact this
  have hin : inBoundsB w h (canon s t 1) = true :=
    canon_inBounds w h s t hs1 hs2 hs3 hs4 ht 1 (le_refl 1)
  have hmem : canon s t 1 ∈ neighbors w h s := by
    rw [mem_neighbors_iff]
    unfold isNeighborB
    rw [Bool.and_eq_true]
    exact ⟨hadj, hin⟩
  have hne : canon s t 1 ≠ s := by
    have := canon_inj s t 1 0 (by omega) (by omega) (by omega)
    rw [hc0] at this
    exact this
  refine ⟨?_, ?_, ?_, ?_⟩
  · intro x
    simp only [List.mem_singleton]
    constructor
    · intro hx
      exact ⟨0, le_refl 0, hx.trans hc0.symm⟩
    · rintro ⟨j, hj, hx⟩
      have : j = 0 := by omega
      rw [hx, this, hc0]
  · exact relaxAll_fst_nodup _ _ _ _ List.nodup_nil
  · refine ⟨[] ++ [canon s t 1], ?_, by simp⟩
    apply relaxAll_adds _ _ _ _ _ (neighbors_nodup w h s) hmem
    · rw [List.mem_singleton]
      exact hne
    · simp
  · intro e he hne2
    rcases relaxAll_mem _ _ _ _ e he with hold | ⟨n, hnmem, hncl, heq⟩
    · cases hold
    · refine ⟨0, le_refl 0, ?_, ?_, ?_⟩
      · rw [heq, hc0]
        have := (mem_neighbors_iff w h s n).mp hnmem
        unfold isNeighborB at this
        rw [Bool.and_eq_true] at this
        exact this.1
      · rw [heq]
        intro hcon
        apply hne2
        rw [heq]
        exact hcon
      · rw [heq]
        simp

theorem chebDist_le_grid (w h : Nat) (s t : Cell)
    (hs1 : 0 ≤ s.1) (hs2 : s.1 ≤ (w : Int)) (hs3 : 0 ≤ s.2) (hs4 : s.2 ≤ (h : Int))
    (ht : inBoundsB w h t = true) : chebDist s t < w * h + 1 := by
  unfold inBoundsB at ht
  simp only [Bool.and_eq_true, decide_eq_true_eq] at ht
  obtain ⟨⟨⟨ht1, ht2⟩, ht3⟩, ht4⟩ := ht
  have hw2 : 2 ≤ w := by omega
  have hh2 : 2 ≤ h := by omega
  have hx : (t.1 - s.1).natAbs ≤ w := by omega
  have hy : (t.2 - s.2).natAbs ≤ h := by omega
  have hwh : w ≤ w * h := Nat.le_mul_of_pos_right w (by omega)
  have hhw : h ≤ w * h := Nat.le_mul_of_pos_left h (by omega)
  unfold chebDist
  omega

/-- The zip theorem: the modelled search follows the canonical geodesic,
so whenever the start is in the closed grid box and the goal passes the
bounds test, the search succeeds and the returned path has exactly the
Chebyshev (minimum-hop) length. -/
theorem astarSearch_zip (w h : Nat) (s t : Cell)
    (hs1 : 0 ≤ s.1) (hs2 : s.1 ≤ (w : Int)) (hs3 : 0 ≤ s.2) (hs4 : s.2 ≤ (h : Int))
    (ht : inBoundsB w h t = true) (hst : s ≠ t) :
    ∃ p, astarSearch w h s t = some p ∧ p.length = chebDist s t := by
  unfold astarSearch
  rw [if_neg hst]
  have hred : astarLoop w h t (w * h + 2) [(s, [])] [] =
      astarLoop w h t (w * h + 1) (relaxAll [s] [] (neighbors w h s) []) [s] := by
    show astarLoop w h t ((w * h + 1) + 1) [(s, [])] [] = _
    simp only [astarLoop]
    have hsel : selectMinAux t (s, ([] : List Cell)) [] = ((s, []), []) := rfl
    rw [if_neg]
    rw [hsel]
    exact hst
  rw [hred]
  obtain ⟨p, hl, hlen⟩ := zip_run w h s t hs1 hs2 hs3 hs4 ht (w * h + 1) 0
    (relaxAll [s] [] (neighbors w h s) []) [s] (chebDist_pos s t hst)
    (by have := chebDist_le_grid w h s t hs1 hs2 hs3 hs4 ht; omega)
    (zip_start w h s t hs1 hs2 hs3 hs4 ht hst)
  refine ⟨p, ?_, hlen⟩
  rw [hl]
  rfl

theorem neighbors_nil_outside (w h : Nat) (s : Cell)
    (hs : s.1 < 0 ∨ (w : Int) < s.1 ∨ s.2 < 0 ∨ (h : Int) < s.2) :
    neighbors w h s = [] := by
  unfold neighbors
  rw [List.filter_eq_nil]
  intro c hc
  rw [List.mem_map] at hc
  obtain ⟨d, hd, hcd⟩ := hc
  unfold offsets at hd
  simp only [List.mem_cons, List.not_mem_nil, or_false] at hd
  intro hcon
  unfold inBoundsB at hcon
  simp only [Bool.and_eq_true, decide_eq_true_eq] at hcon
  have hc1 : c.1 = s.1 + d.1 := by rw [← hcd]
  have hc2 : c.2 = s.2 + d.2 := by rw [← hcd]
  rcases hd with hh | hh | hh | hh | hh | hh | hh | hh <;>
    · rw [Prod.mk.injEq] at hh
      omega

theorem astarSearch_outside_none (w h : Nat) (s g : Cell)
    (hs : s.1 < 0 ∨ (w : Int) < s.1 ∨ s.2 < 0 ∨ (h : Int) < s.2) :
    astarSearch w h s g = none := by
  unfold astarSearch
  by_cases hsg : s = g
  · rw [if_pos hsg]
  · rw [if_neg hsg]
    have hred : astarLoop w h g (w * h + 2) [(s, [])] [] =
        astarLoop w h g (w * h + 1) [] [s] := by
      show astarLoop w h g ((w * h + 1) + 1) [(s, [])] [] = _
      simp only [astarLoop]
      have hsel : selectMinAux g (s, ([] : List Cell)) [] = ((s, []), []) := rfl
      rw [if_neg]
      · rw [hsel, neighbors_nil_outside w h s hs]
        rfl
      · rw [hsel]
        exact hsg
    rw [hred]
    show (astarLoop w h g ((w * h) + 1) [] [s]).join = none
    rfl

/-- C2: whenever the search returns a path, that path runs from the start
to the goal and its edge count is minimal among all neighbor-step paths
from the start to the goal — the length a brute-force breadth-first
search would report. -/
theorem astarSearch_returns_shortest (w h : Nat) (s t : Cell) (p : List Cell)
    (hp : astarSearch w h s t = some p) :
    chainB w h s p = true ∧ lastD s p = t ∧
      ∀ q, chainB w h s q = true → lastD s q = t → p.length ≤ q.length := by
  obtain ⟨hch, hlast, hsp, hst⟩ := astarSearch_ok w h s t p hp
  refine ⟨hch, hlast, ?_⟩
  intro q hq hqlast
  have hne : p ≠ [] := astarSearch_path_ne_nil w h s t p hp
  have htmem : t ∈ p := hlast ▸ lastD_mem s p hne
  have htin : inBoundsB w h t = true := chainB_mem_inBounds w h p s t hch htmem
  have hbox : 0 ≤ s.1 ∧ s.1 ≤ (w : Int) ∧ 0 ≤ s.2 ∧ s.2 ≤ (h : Int) := by
    by_contra hcon
    have hout : s.1 < 0 ∨ (w : Int) < s.1 ∨ s.2 < 0 ∨ (h : Int) < s.2 := by
      omega
    have hnone := astarSearch_outside_none w h s t hout
    rw [hnone] at hp
    cases hp
  obtain ⟨p', hp', hlen'⟩ := astarSearch_zip w h s t hbox.1 hbox.2.1
    hbox.2.2.1 hbox.2.2.2 htin hst
  rw [hp] at hp'
  injection hp' with hpe
  rw [← hpe] at hlen'
  have hqlen : chebDist s t ≤ q.length := chainB_length_ge w h q s t hq hqlast
  omega

/-- Witness for C2: the 10×10 run from `(1,1)` to `(5,5)` returns the
4-step diagonal, which is no longer than the concrete 5-step path
`(1,2),(2,3),(3,4),(4,5),(5,5)`. -/
theorem astarSearch_returns_shortest_witness :
    chainB 10 10 (1, 1) [(2, 2), (3, 3), (4, 4), (5, 5)] = true ∧
    lastD (1, 1) [(2, 2), (3, 3), (4, 4), (5, 5)] = (5, 5) ∧
    ([(2, 2), (3, 3), (4, 4), (5, 5)] : List Cell).length ≤
      ([(1, 2), (2, 3), (3, 4), (4, 5), (5, 5)] : List Cell).length := by
  obtain ⟨h1, h2, h3⟩ := astarSearch_returns_shortest 10 10 (1, 1) (5, 5)
    [(2, 2), (3, 3), (4, 4), (5, 5)] (by decide)
  exact ⟨h1, h2, h3 [(1, 2), (2, 3), (3, 4), (4, 5), (5, 5)]
    (by decide) (by decide)⟩

end RandomGame
